import Mathlib

/-!
Verification of the autodev response-parsing / project-assembly pipeline
against its specification.  Components whose implementation is present in
the repository (generated frontend components) are embedded from source;
the core pipeline components (normalizer, parser, assembler, orchestrator)
are modelled from the specification, the implementation files being absent
from the repository snapshot.
-/

namespace AutoDev

/-! ## Virtual DOM model for the React components in the repository -/

/-- A rendered virtual-DOM node: either a text node or an element with a tag,
an attribute list and children.  Embeds the JSX values returned by the
repository's React components. -/
inductive VNode where
  | text (s : String)
  | elem (tag : String) (attrs : List (String × String)) (children : List VNode)

/-- JavaScript object-lookup semantics used by the component's class maps:
a missing key interpolates as the string "undefined" in a template string. -/
def jsLookup (m : List (String × String)) (k : String) : String :=
  match m.find? (fun p => p.1 == k) with
  | some p => p.2
  | none => "undefined"

/-! ## LoadingSpinner (src/output/projects/priority-todo-list/frontend/src/components/LoadingSpinner.jsx) -/

/-- Props of `LoadingSpinner`, with the component's defaults applied by
`LoadingSpinner.defaults`. -/
structure SpinnerProps where
  size : String
  color : String
  visible : Bool
  label : String
  className : String
  deriving DecidableEq, Repr

/-- The `sizeClasses` Tailwind map from LoadingSpinner.jsx. -/
def sizeClasses : List (String × String) :=
  [("sm", "w-4 h-4"), ("md", "w-8 h-8"), ("lg", "w-12 h-12")]

/-- The `colorClasses` Tailwind map from LoadingSpinner.jsx. -/
def colorClasses : List (String × String) :=
  [("blue", "text-blue-500"), ("gray", "text-gray-500"), ("red", "text-red-500"),
   ("green", "text-green-500"), ("yellow", "text-yellow-500")]

/-- The SVG circle child of the spinner. -/
def spinnerCircle : VNode :=
  .elem "circle"
    [("className", "opacity-25"), ("cx", "12"), ("cy", "12"), ("r", "10"),
     ("stroke", "currentColor"), ("strokeWidth", "4")] []

/-- The SVG path child of the spinner. -/
def spinnerPath : VNode :=
  .elem "path"
    [("className", "opacity-75"), ("fill", "currentColor"),
     ("d", "M4 12a8 8 0 018-8V0C5.373 0 0 5.373 0 12h4zm2 5.291A7.962 7.962 0 014 12H0c0 3.042 1.135 5.824 3 7.938l3-2.647z")] []

/-- Embedding of the `LoadingSpinner` component body: returns `none` (JSX
`null`) when `visible` is false, otherwise the rendered `div` with
`role="status"` and the accessible label. -/
def LoadingSpinner (p : SpinnerProps) : Option VNode :=
  if !p.visible then
    none
  else
    some (.elem "div"
      [("className", "flex items-center justify-center " ++ p.className),
       ("role", "status"), ("aria-label", p.label)]
      [.elem "svg"
        [("className", jsLookup sizeClasses p.size ++ " " ++ jsLookup colorClasses p.color
            ++ " animate-spin"),
         ("xmlns", "http://www.w3.org/2000/svg"), ("fill", "none"),
         ("viewBox", "0 0 24 24"), ("aria-hidden", "true")]
        [spinnerCircle, spinnerPath],
       .elem "span" [("className", "sr-only")] [.text p.label]])

/-- Default props of `LoadingSpinner` as destructured in the source. -/
def SpinnerProps.defaults : SpinnerProps :=
  { size := "md", color := "blue", visible := true, label := "Loading...", className := "" }

/-! ## Simple Calculator App theme state
(src/output/projects/Simple Calculator_20260123_161712/frontend/App.jsx) -/

/-- The `toggleTheme` closure from App.jsx:
`setTheme(theme === 'light' ? 'dark' : 'light')`. -/
def toggleTheme (t : String) : String :=
  if t == "light" then "dark" else "light"

/-- The system-preference effect from App.jsx: when the media query matches,
the theme is set to `'dark'` regardless of the current value. -/
def applySystemPreference (darkPreferred : Bool) (t : String) : String :=
  if darkPreferred then "dark" else t

/-- Reachable theme states of the App component: initialized to `"light"`
(the `useState('light')` call), possibly set to `"dark"` by the
system-preference effect, and toggled by `toggleTheme`. -/
inductive ThemeReach : String → Prop where
  | init : ThemeReach "light"
  | system (b : Bool) {t : String} (h : ThemeReach t) : ThemeReach (applySystemPreference b t)
  | toggle {t : String} (h : ThemeReach t) : ThemeReach (toggleTheme t)

/-! ## ResponseNormalizer

Modelled from the spec: the repository snapshot does not contain the
implementation of the parsing/assembly pipeline (only generated project
output and the README describing it), so `normalize` below follows §4.1 of
the specification: (1) strip a single wrapping fenced-code block, (2) trim
prose outside the first balanced bracket span, (3) normalize line endings
and remove a byte-order mark; each step skipped if it would produce an
empty result. -/

/-- A byte-order-mark character. -/
def isBOMChar (c : Char) : Bool := c = '\uFEFF'

/-- A structural opening character (`{` or `[`), spec §4.1 step 2. -/
def isOpenBr (c : Char) : Bool := c = '{' || c = '['

/-- A structural closing character (`}` or `]`). -/
def isCloseBr (c : Char) : Bool := c = '}' || c = ']'

/-- Modelled from the spec: removal of a leading byte-order mark. -/
def stripBOM (cs : List Char) : List Char := cs.dropWhile isBOMChar

/-- Modelled from the spec: normalize line endings to `\n` (CRLF and lone CR
both become LF). -/
def normEOL : List Char → List Char
  | [] => []
  | '\r' :: '\n' :: cs => '\n' :: normEOL cs
  | '\r' :: cs => '\n' :: normEOL cs
  | c :: cs => c :: normEOL cs

/-- Spec §4.1 step 3: BOM removal followed by line-ending normalization. -/
def normalizeEOL (cs : List Char) : List Char := normEOL (stripBOM cs)

/-- Bracket-depth update for one character. -/
def brDelta (c : Char) (d : Nat) : Nat :=
  if isOpenBr c then d + 1 else if isCloseBr c then d - 1 else d

/-- Bracket-depth scan: starting at depth `d`, consume characters until the
depth returns to zero and return the consumed span, or `none` if the depth
never returns to zero. -/
def scanBalanced : List Char → Nat → Option (List Char)
  | [], _ => none
  | c :: cs, d =>
    if brDelta c d = 0 then some [c]
    else (scanBalanced cs (brDelta c d)).map (fun out => c :: out)

/-- Spec §4.1 step 2: trim leading prose before the first structural opening
character and trailing prose after the matching closing character, when
bracket-depth tracking confirms a balanced span; otherwise leave the text
unchanged. -/
def trimToSpan (cs : List Char) : List Char :=
  match scanBalanced (cs.dropWhile (fun c => !isOpenBr c)) 0 with
  | some span => span
  | none => cs

/-- Split text into lines, treating CRLF, CR and LF each as one line break. -/
def splitLines : List Char → List (List Char)
  | [] => [[]]
  | '\r' :: '\n' :: cs => [] :: splitLines cs
  | '\r' :: cs => [] :: splitLines cs
  | '\n' :: cs => [] :: splitLines cs
  | c :: cs => (c :: (splitLines cs).headD []) :: (splitLines cs).tail

/-- Join lines back with LF separators. -/
def joinLines : List (List Char) → List Char
  | [] => []
  | [l] => l
  | l :: ls => l ++ '\n' :: joinLines ls

/-- The triple-backtick fence marker. -/
def backticks : List Char := ['`', '`', '`']

/-- A line opening a fenced block: starts (transparently to a BOM) with
three backticks, optionally followed by a language tag. -/
def fenceCheck (l : List Char) : Bool := decide ((l.dropWhile isBOMChar).take 3 = backticks)

/-- Horizontal whitespace. -/
def isWSChar (c : Char) : Bool := c = ' ' || c = '\t'

/-- Trim horizontal whitespace from both ends of a line. -/
def trimWS (l : List Char) : List Char :=
  ((l.dropWhile isWSChar).reverse.dropWhile isWSChar).reverse

/-- A line closing a fenced block: exactly three backticks up to horizontal
whitespace. -/
def closeCheck (l : List Char) : Bool := decide (trimWS l = backticks)

/-- The lines strictly between the opening and closing fence lines. -/
def fenceMiddle (ls : List (List Char)) : List (List Char) := (ls.drop 1).dropLast

/-- Guard of spec §4.1 step 1 at the level of lines: the text is wrapped in
exactly one fenced block (first line opens a fence, last line closes it, no
interior line opens a fence) and stripping it would not produce an empty
result. -/
def fenceGuardLines (ls : List (List Char)) : Bool :=
  decide (3 ≤ ls.length) && fenceCheck (ls.headD []) && closeCheck (ls.getLastD []) &&
    (fenceMiddle ls).all (fun l => !fenceCheck l) && !(joinLines (fenceMiddle ls)).isEmpty

/-- Guard of spec §4.1 step 1. -/
def fenceGuard (cs : List Char) : Bool := fenceGuardLines (splitLines cs)

/-- Spec §4.1 step 1: strip a single wrapping fenced-code block. -/
def fenceStrip (cs : List Char) : List Char :=
  if fenceGuard cs then joinLines (fenceMiddle (splitLines cs)) else cs

/-- The three normalization steps of spec §4.1 in order. -/
def normalizeChars (cs : List Char) : List Char :=
  normalizeEOL (trimToSpan (fenceStrip cs))

/-- Modelled from the spec: `ResponseNormalizer.normalize`, a total pure
function on strings (it never fails; absent any recognized wrapping it
returns the input unchanged up to line-ending normalization). -/
def normalize (s : String) : String := String.mk (normalizeChars s.data)

/-! ### Normalizer lemmas: line-ending step -/

/-- A character surviving `dropWhile p` at the head falsifies `p`. -/
theorem dropWhile_head_false {p : Char → Bool} {l r : List Char} {c : Char}
    (h : l.dropWhile p = c :: r) : p c = false := by
  induction l with
  | nil => simp [List.dropWhile] at h
  | cons a l ih =>
    rw [List.dropWhile_cons] at h
    cases ha : p a
    · rw [ha] at h; simp at h; rw [h.1] at ha; exact ha
    · rw [ha] at h; simp at h; exact ih h

/-- `dropWhile` with the same predicate is idempotent. -/
theorem dropWhile_dropWhile_self (p : Char → Bool) (l : List Char) :
    (l.dropWhile p).dropWhile p = l.dropWhile p := by
  rcases h : l.dropWhile p with _ | ⟨c, r⟩
  · rfl
  · rw [List.dropWhile_cons, dropWhile_head_false h]; simp

/-- Dropping with a weaker predicate after a stronger one is redundant. -/
theorem dropWhile_dropWhile_of_imp {p q : Char → Bool}
    (hpq : ∀ c, q c = true → p c = true) (l : List Char) :
    (l.dropWhile q).dropWhile p = l.dropWhile p := by
  induction l with
  | nil => rfl
  | cons a l ih =>
    cases hq : q a
    · rw [List.dropWhile_cons_of_neg (by simp [hq])]
    · rw [List.dropWhile_cons_of_pos hq, ih, List.dropWhile_cons_of_pos (hpq a hq)]

/-- `normEOL` never outputs a carriage return. -/
theorem mem_normEOL_ne_cr (cs : List Char) : ∀ c ∈ normEOL cs, c ≠ '\r' := by
  induction cs using normEOL.induct with
  | case1 => intro c hc; simp [normEOL] at hc
  | case2 cs ih =>
    rw [normEOL.eq_2]
    intro c hc
    rcases List.mem_cons.1 hc with h | h
    · subst h; decide
    · exact ih c h
  | case3 cs h ih =>
    rw [normEOL.eq_3 _ h]
    intro c hc
    rcases List.mem_cons.1 hc with h' | h'
    · subst h'; decide
    · exact ih c h'
  | case4 c cs h1 h2 ih =>
    rw [normEOL.eq_4 _ _ h1 h2]
    intro d hd
    rcases List.mem_cons.1 hd with h' | h'
    · subst h'; exact fun hq => h2 hq
    · exact ih d h'

/-- `normEOL` is the identity on carriage-return-free text. -/
theorem normEOL_of_no_cr : ∀ cs : List Char, (∀ c ∈ cs, c ≠ '\r') → normEOL cs = cs := by
  intro cs
  induction cs with
  | nil => intro _; rfl
  | cons c cs ih =>
    intro h
    have hc : c ≠ '\r' := h c (List.mem_cons_self _ _)
    rw [normEOL.eq_4 _ _ (fun _ h' _ => hc h') (fun h' => hc h'),
      ih (fun d hd => h d (List.mem_cons_of_mem _ hd))]

/-- `normEOL` is idempotent. -/
theorem normEOL_idem (cs : List Char) : normEOL (normEOL cs) = normEOL cs :=
  normEOL_of_no_cr _ (mem_normEOL_ne_cr cs)

/-- The head of `normEOL` output is the input's head, except that a leading
carriage return becomes a line feed; in particular a non-BOM head stays a
non-BOM head. -/
theorem stripBOM_normEOL (cs : List Char) :
    stripBOM (normEOL (stripBOM cs)) = normEOL (stripBOM cs) := by
  rcases h : stripBOM cs with _ | ⟨c, r⟩
  · rfl
  · have hc : isBOMChar c = false := dropWhile_head_false h
    have hcr : c = '\r' ∨ c ≠ '\r' := em _
    rcases hcr with hcr | hcr
    · subst hcr
      rcases r with _ | ⟨c2, r2⟩
      · rw [show normEOL ['\r'] = ['\n'] from rfl]; rfl
      · rcases em (c2 = '\n') with h2 | h2
        · subst h2; rw [normEOL.eq_2]
          unfold stripBOM
          rw [List.dropWhile_cons]
          simp [isBOMChar]
        · rw [normEOL.eq_3 _ (fun cs1 hq => h2 (by injection hq))]
          unfold stripBOM
          rw [List.dropWhile_cons]
          simp [isBOMChar]
    · rw [normEOL.eq_4 _ _ (fun _ h' _ => hcr h') (fun h' => hcr h')]
      unfold stripBOM
      rw [List.dropWhile_cons, hc]
      simp

/-- Spec §4.1 step 3 is idempotent. -/
theorem normalizeEOL_idem (cs : List Char) :
    normalizeEOL (normalizeEOL cs) = normalizeEOL cs := by
  unfold normalizeEOL
  rw [show stripBOM (normEOL (stripBOM cs)) = normEOL (stripBOM cs) from stripBOM_normEOL cs,
    normEOL_idem]

/-! ### Normalizer lemmas: bracket-span step -/

/-- Unfolding lemma for `scanBalanced` on a cons cell. -/
theorem scanBalanced_cons (c : Char) (cs : List Char) (d : Nat) :
    scanBalanced (c :: cs) d =
      if brDelta c d = 0 then some [c]
      else (scanBalanced cs (brDelta c d)).map (fun out => c :: out) := rfl

/-- `brDelta` of a non-bracket character leaves the depth unchanged. -/
theorem brDelta_other {c : Char} (h1 : isOpenBr c = false) (h2 : isCloseBr c = false)
    (d : Nat) : brDelta c d = d := by
  simp [brDelta, h1, h2]

/-- The span returned by `scanBalanced` starts with the first input character. -/
theorem scanBalanced_head {c : Char} {cs out : List Char} {d : Nat}
    (h : scanBalanced (c :: cs) d = some out) : ∃ r, out = c :: r := by
  rw [scanBalanced_cons] at h
  by_cases hd : brDelta c d = 0
  · rw [if_pos hd] at h
    exact ⟨[], by injection h with h; exact h.symm⟩
  · rw [if_neg hd] at h
    rcases Option.map_eq_some'.1 h with ⟨r, _, hr⟩
    exact ⟨r, hr.symm⟩

/-- Rescanning the span returned by `scanBalanced` returns the span itself. -/
theorem scanBalanced_self : ∀ (cs : List Char) (d : Nat) (out : List Char),
    scanBalanced cs d = some out → scanBalanced out d = some out := by
  intro cs
  induction cs with
  | nil => intro d out h; simp [scanBalanced] at h
  | cons c cs ih =>
    intro d out h
    rw [scanBalanced_cons] at h
    by_cases hd : brDelta c d = 0
    · rw [if_pos hd] at h
      injection h with h; subst h
      rw [scanBalanced_cons, if_pos hd]
    · rw [if_neg hd] at h
      rcases Option.map_eq_some'.1 h with ⟨out', hscan, hout⟩
      subst hout
      rw [scanBalanced_cons, if_neg hd, ih _ _ hscan]
      rfl

/-- When `trimToSpan` finds a span, the span starts with an opening bracket. -/
theorem trimToSpan_span_head {cs span : List Char}
    (h : scanBalanced (cs.dropWhile (fun c => !isOpenBr c)) 0 = some span) :
    ∃ c r, span = c :: r ∧ isOpenBr c = true := by
  rcases hp : cs.dropWhile (fun c => !isOpenBr c) with _ | ⟨c, pre⟩
  · rw [hp] at h; simp [scanBalanced] at h
  · rw [hp] at h
    rcases scanBalanced_head h with ⟨r, hr⟩
    refine ⟨c, r, hr, ?_⟩
    have := dropWhile_head_false hp
    simpa using this

/-- Spec §4.1 step 2 is idempotent. -/
theorem trimToSpan_idem (cs : List Char) : trimToSpan (trimToSpan cs) = trimToSpan cs := by
  rcases h : scanBalanced (cs.dropWhile (fun c => !isOpenBr c)) 0 with _ | span
  · have h1 : trimToSpan cs = cs := by unfold trimToSpan; rw [h]
    rw [h1]; exact h1
  · have h1 : trimToSpan cs = span := by unfold trimToSpan; rw [h]
    rcases trimToSpan_span_head h with ⟨c, r, hspan, hopen⟩
    subst hspan
    have hdrop : (c :: r).dropWhile (fun c => !isOpenBr c) = c :: r :=
      List.dropWhile_cons_of_neg (by simp [hopen])
    have h2 : trimToSpan (c :: r) = c :: r := by
      unfold trimToSpan; rw [hdrop, scanBalanced_self _ _ _ h]
    rw [h1, h2]

/-- `scanBalanced` commutes with line-ending normalization: normalizing the
line endings of the input normalizes the returned span. -/
theorem scanBalanced_normEOL : ∀ (cs : List Char) (d : Nat),
    scanBalanced (normEOL cs) d = (scanBalanced cs d).map normEOL := by
  have hnl1 : isOpenBr '\n' = false := by decide
  have hnl2 : isCloseBr '\n' = false := by decide
  have hcr1 : isOpenBr '\r' = false := by decide
  have hcr2 : isCloseBr '\r' = false := by decide
  intro cs
  induction cs using normEOL.induct with
  | case1 => intro d; rfl
  | case2 cs ih =>
    intro d
    rw [normEOL.eq_2]
    rw [scanBalanced_cons, scanBalanced_cons, brDelta_other hnl1 hnl2,
      brDelta_other hcr1 hcr2]
    by_cases hd : d = 0
    · rw [if_pos hd, if_pos hd]; rfl
    · rw [if_neg hd, if_neg hd, scanBalanced_cons, brDelta_other hnl1 hnl2, if_neg hd, ih]
      rcases scanBalanced cs d with _ | out
      · rfl
      · simp only [Option.map_some']
        rw [normEOL.eq_2]
  | case3 cs hne ih =>
    intro d
    rw [normEOL.eq_3 _ hne]
    rw [scanBalanced_cons, scanBalanced_cons, brDelta_other hnl1 hnl2,
      brDelta_other hcr1 hcr2]
    by_cases hd : d = 0
    · rw [if_pos hd, if_pos hd]; rfl
    · rw [if_neg hd, if_neg hd, ih]
      rcases hs : scanBalanced cs d with _ | out
      · rfl
      · simp only [Option.map_some']
        rcases cs with _ | ⟨c0, cs'⟩
        · simp [scanBalanced] at hs
        · rcases scanBalanced_head hs with ⟨r, hr⟩
          subst hr
          have hc0 : c0 ≠ '\n' := fun hq => hne cs' (by rw [hq])
          rw [normEOL.eq_3 _ (fun cs1 hq => hc0 (by injection hq))]
  | case4 c cs h1 h2 ih =>
    intro d
    have hc : c ≠ '\r' := fun hq => h2 hq
    rw [normEOL.eq_4 _ _ h1 h2]
    rw [scanBalanced_cons, scanBalanced_cons]
    by_cases hd : brDelta c d = 0
    · rw [if_pos hd, if_pos hd]
      simp only [Option.map_some']
      rw [normEOL_of_no_cr [c] (by intro x hx; rcases List.mem_singleton.1 hx with h; subst h; exact hc)]
    · rw [if_neg hd, if_neg hd, ih]
      rcases scanBalanced cs (brDelta c d) with _ | out
      · rfl
      · simp only [Option.map_some']
        rw [normEOL.eq_4 _ _ (fun _ hq _ => hc hq) (fun hq => hc hq)]

/-- Dropping non-opening characters commutes with line-ending
normalization. -/
theorem dropWhile_nonOpen_normEOL : ∀ cs : List Char,
    (normEOL cs).dropWhile (fun c => !isOpenBr c)
      = normEOL (cs.dropWhile (fun c => !isOpenBr c)) := by
  intro cs
  induction cs using normEOL.induct with
  | case1 => rfl
  | case2 cs ih =>
    rw [normEOL.eq_2,
      show List.dropWhile (fun c => !isOpenBr c) ('\n' :: normEOL cs)
        = List.dropWhile (fun c => !isOpenBr c) (normEOL cs) from
        List.dropWhile_cons_of_pos (by decide),
      show List.dropWhile (fun c => !isOpenBr c) ('\r' :: '\n' :: cs)
        = List.dropWhile (fun c => !isOpenBr c) ('\n' :: cs) from
        List.dropWhile_cons_of_pos (by decide),
      show List.dropWhile (fun c => !isOpenBr c) ('\n' :: cs)
        = List.dropWhile (fun c => !isOpenBr c) cs from
        List.dropWhile_cons_of_pos (by decide), ih]
  | case3 cs hne ih =>
    rw [normEOL.eq_3 _ hne,
      show List.dropWhile (fun c => !isOpenBr c) ('\n' :: normEOL cs)
        = List.dropWhile (fun c => !isOpenBr c) (normEOL cs) from
        List.dropWhile_cons_of_pos (by decide),
      show List.dropWhile (fun c => !isOpenBr c) ('\r' :: cs)
        = List.dropWhile (fun c => !isOpenBr c) cs from
        List.dropWhile_cons_of_pos (by decide), ih]
  | case4 c cs h1 h2 ih =>
    have hc : c ≠ '\r' := fun hq => h2 hq
    rw [normEOL.eq_4 _ _ h1 h2]
    cases hio : isOpenBr c
    · rw [List.dropWhile_cons_of_pos (by simp [hio]),
        List.dropWhile_cons_of_pos (by simp [hio]), ih]
    · rw [List.dropWhile_cons_of_neg (by simp [hio]),
        List.dropWhile_cons_of_neg (by simp [hio]),
        normEOL.eq_4 _ _ (fun _ hq _ => hc hq) (fun hq => hc hq)]

/-- Spec §4.1 step 2 commutes with step 3. -/
theorem trimToSpan_normalizeEOL (x : List Char) :
    trimToSpan (normalizeEOL x) = normalizeEOL (trimToSpan x) := by
  have hBOMnonopen : ∀ c, isBOMChar c = true → (fun c => !isOpenBr c) c = true := by
    intro c hc
    have hc' : c = '\uFEFF' := by simpa [isBOMChar] using hc
    subst hc'; decide
  have hdrop : (normalizeEOL x).dropWhile (fun c => !isOpenBr c)
      = normEOL (x.dropWhile (fun c => !isOpenBr c)) := by
    unfold normalizeEOL stripBOM
    rw [dropWhile_nonOpen_normEOL, dropWhile_dropWhile_of_imp hBOMnonopen]
  rcases h : scanBalanced (x.dropWhile (fun c => !isOpenBr c)) 0 with _ | span
  · have h2 : scanBalanced ((normalizeEOL x).dropWhile (fun c => !isOpenBr c)) 0 = none := by
      rw [hdrop, scanBalanced_normEOL, h]; rfl
    have e1 : trimToSpan x = x := by unfold trimToSpan; rw [h]
    have e2 : trimToSpan (normalizeEOL x) = normalizeEOL x := by unfold trimToSpan; rw [h2]
    rw [e1, e2]
  · have h2 : scanBalanced ((normalizeEOL x).dropWhile (fun c => !isOpenBr c)) 0
        = some (normEOL span) := by
      rw [hdrop, scanBalanced_normEOL, h]; rfl
    have e1 : trimToSpan x = span := by unfold trimToSpan; rw [h]
    have e2 : trimToSpan (normalizeEOL x) = normEOL span := by unfold trimToSpan; rw [h2]
    rw [e1, e2]
    rcases trimToSpan_span_head h with ⟨c, r, hspan, hopen⟩
    subst hspan
    have hcnb : isBOMChar c = false := by
      rcases (show c = '{' ∨ c = '[' by simpa [isOpenBr] using hopen) with hq | hq <;>
        subst hq <;> decide
    unfold normalizeEOL stripBOM
    rw [List.dropWhile_cons_of_neg (by simp [hcnb])]

/-! ### Normalizer lemmas: fenced-block step -/

/-- `splitLines` never returns an empty list of lines. -/
theorem splitLines_ne_nil : ∀ cs : List Char, splitLines cs ≠ [] := by
  intro cs
  induction cs using splitLines.induct with
  | case1 => simp [splitLines]
  | case2 cs ih => rw [splitLines.eq_2]; simp
  | case3 cs hne ih => rw [splitLines.eq_3 _ hne]; simp
  | case4 cs ih => rw [splitLines.eq_4]; simp
  | case5 c cs h1 h2 h3 ih => rw [splitLines.eq_5 _ _ h1 h2 h3]; simp

/-- Lines produced by `splitLines` contain no line-break characters. -/
theorem mem_splitLines_no_break : ∀ cs : List Char, ∀ l ∈ splitLines cs, ∀ c ∈ l,
    c ≠ '\n' ∧ c ≠ '\r' := by
  intro cs
  induction cs using splitLines.induct with
  | case1 =>
    intro l hl c hc
    rcases List.mem_singleton.1 hl with h; subst h; simp at hc
  | case2 cs ih =>
    intro l hl
    rw [splitLines.eq_2] at hl
    rcases List.mem_cons.1 hl with h | h
    · subst h; intro c hc; simp at hc
    · exact ih l h
  | case3 cs hne ih =>
    intro l hl
    rw [splitLines.eq_3 _ hne] at hl
    rcases List.mem_cons.1 hl with h | h
    · subst h; intro c hc; simp at hc
    · exact ih l h
  | case4 cs ih =>
    intro l hl
    rw [splitLines.eq_4] at hl
    rcases List.mem_cons.1 hl with h | h
    · subst h; intro c hc; simp at hc
    · exact ih l h
  | case5 c cs h1 h2 h3 ih =>
    intro l hl
    rw [splitLines.eq_5 _ _ h1 h2 h3] at hl
    rcases List.mem_cons.1 hl with h | h
    · subst h
      intro d hd
      rcases List.mem_cons.1 hd with h' | h'
      · subst h'; exact ⟨fun hq => h3 hq, fun hq => h2 hq⟩
      · rcases hS : splitLines cs with _ | ⟨l0, ls⟩
        · exact absurd hS (splitLines_ne_nil cs)
        · refine ih l0 (by rw [hS]; exact List.mem_cons_self _ _) d ?_
          rw [hS] at h'; simpa using h'
    · rcases hS : splitLines cs with _ | ⟨l0, ls⟩
      · exact absurd hS (splitLines_ne_nil cs)
      · rw [hS] at h
        exact ih l (by rw [hS]; exact List.mem_cons_of_mem _ (by simpa using h))

/-- `joinLines` on at least two lines. -/
theorem joinLines_cons {l : List (List Char)} (a : List Char) (h : l ≠ []) :
    joinLines (a :: l) = a ++ '\n' :: joinLines l := by
  rcases l with _ | ⟨b, l⟩
  · exact absurd rfl h
  · rfl

/-- `splitLines` of a break-free line is that single line. -/
theorem splitLines_no_break (l : List Char) (h : ∀ c ∈ l, c ≠ '\n' ∧ c ≠ '\r') :
    splitLines l = [l] := by
  induction l with
  | nil => rfl
  | cons c l ih =>
    have hc := h c (List.mem_cons_self _ _)
    rw [splitLines.eq_5 _ _ (fun _ hq _ => hc.2 hq) (fun hq => hc.2 hq) (fun hq => hc.1 hq),
      ih (fun d hd => h d (List.mem_cons_of_mem _ hd))]
    rfl

/-- `splitLines` of a break-free line followed by an LF and a remainder. -/
theorem splitLines_append (l rest : List Char) (h : ∀ c ∈ l, c ≠ '\n' ∧ c ≠ '\r') :
    splitLines (l ++ '\n' :: rest) = l :: splitLines rest := by
  induction l with
  | nil => rw [List.nil_append, splitLines.eq_4]
  | cons c l ih =>
    have hc := h c (List.mem_cons_self _ _)
    rw [List.cons_append,
      splitLines.eq_5 _ _ (fun _ hq _ => hc.2 hq) (fun hq => hc.2 hq) (fun hq => hc.1 hq),
      ih (fun d hd => h d (List.mem_cons_of_mem _ hd))]
    rfl

/-- `splitLines` is a left inverse of `joinLines` on nonempty break-free
line lists. -/
theorem splitLines_joinLines : ∀ ls : List (List Char), ls ≠ [] →
    (∀ l ∈ ls, ∀ c ∈ l, c ≠ '\n' ∧ c ≠ '\r') → splitLines (joinLines ls) = ls := by
  intro ls
  induction ls with
  | nil => intro h; exact absurd rfl h
  | cons l ls ih =>
    intro _ hbf
    rcases hls : ls with _ | ⟨l2, ls'⟩
    · rw [show joinLines [l] = l from rfl]
      exact splitLines_no_break l (hbf l (List.mem_cons_self _ _))
    · rw [← hls, joinLines_cons l (by rw [hls]; simp),
        splitLines_append l _ (hbf l (List.mem_cons_self _ _)),
        ih (by rw [hls]; simp) (fun m hm => hbf m (List.mem_cons_of_mem _ hm))]

/-- `splitLines` is invariant under line-ending normalization. -/
theorem splitLines_normEOL : ∀ cs : List Char, splitLines (normEOL cs) = splitLines cs := by
  intro cs
  induction cs using normEOL.induct with
  | case1 => rfl
  | case2 cs ih => rw [normEOL.eq_2, splitLines.eq_2, splitLines.eq_4, ih]
  | case3 cs hne ih => rw [normEOL.eq_3 _ hne, splitLines.eq_3 _ hne, splitLines.eq_4, ih]
  | case4 c cs h1 h2 ih =>
    rw [normEOL.eq_4 _ _ h1 h2]
    rcases em (c = '\n') with hq | hq
    · subst hq; rw [splitLines.eq_4, splitLines.eq_4, ih]
    · rw [splitLines.eq_5 c (normEOL cs) (fun _ hv _ => h2 hv) h2 (fun hv => hq hv), ih,
        splitLines.eq_5 c cs h1 h2 (fun hv => hq hv)]

/-- `splitLines` after BOM removal strips the BOM from the first line only. -/
theorem splitLines_stripBOM : ∀ cs : List Char,
    splitLines (stripBOM cs) = (splitLines cs).modifyHead stripBOM := by
  intro cs
  induction cs using splitLines.induct with
  | case1 => rfl
  | case2 cs ih =>
    rw [show stripBOM ('\r' :: '\n' :: cs) = '\r' :: '\n' :: cs from
        List.dropWhile_cons_of_neg (by decide),
      splitLines.eq_2]
    rfl
  | case3 cs hne ih =>
    rw [show stripBOM ('\r' :: cs) = '\r' :: cs from
        List.dropWhile_cons_of_neg (by decide),
      splitLines.eq_3 _ hne]
    rfl
  | case4 cs ih =>
    rw [show stripBOM ('\n' :: cs) = '\n' :: cs from
        List.dropWhile_cons_of_neg (by decide),
      splitLines.eq_4]
    rfl
  | case5 c cs h1 h2 h3 ih =>
    cases hb : isBOMChar c
    · rw [show stripBOM (c :: cs) = c :: cs from List.dropWhile_cons_of_neg (by simp [hb]),
        splitLines.eq_5 _ _ h1 h2 h3]
      simp only [List.modifyHead]
      rw [show stripBOM (c :: (splitLines cs).headD []) = c :: (splitLines cs).headD [] from
        List.dropWhile_cons_of_neg (by simp [hb])]
    · rw [show stripBOM (c :: cs) = stripBOM cs from List.dropWhile_cons_of_pos hb, ih,
        splitLines.eq_5 _ _ h1 h2 h3]
      simp only [List.modifyHead]
      rw [show stripBOM (c :: (splitLines cs).headD []) = stripBOM ((splitLines cs).headD []) from
        List.dropWhile_cons_of_pos hb]
      rcases hS : splitLines cs with _ | ⟨l0, ls⟩
      · exact absurd hS (splitLines_ne_nil cs)
      · rfl

/-- Opening a fence is transparent to BOM stripping. -/
theorem fenceCheck_stripBOM (l : List Char) : fenceCheck (stripBOM l) = fenceCheck l := by
  unfold fenceCheck stripBOM
  rw [dropWhile_dropWhile_self]

/-- `getLastD` of a nonempty list ignores the default. -/
theorem getLastD_ne_nil {α : Type} {l : List α} (h : l ≠ []) (a b : α) :
    l.getLastD a = l.getLastD b := by
  rcases l with _ | ⟨x, l⟩
  · exact absurd rfl h
  · rw [List.getLastD_cons, List.getLastD_cons]

/-- Unfolding of the fence guard on at least two lines. -/
theorem fenceGuardLines_cons2 (a b : List Char) (t : List (List Char)) :
    fenceGuardLines (a :: b :: t) =
      (decide (3 ≤ t.length + 2) && fenceCheck a && closeCheck ((b :: t).getLastD a) &&
        ((b :: t).dropLast).all (fun l => !fenceCheck l) &&
        !(joinLines ((b :: t).dropLast)).isEmpty) := by
  unfold fenceGuardLines fenceMiddle
  rw [List.getLastD_cons]
  rfl

/-- A one-line text never passes the fence guard. -/
theorem fenceGuardLines_singleton (a : List Char) : fenceGuardLines [a] = false := by
  simp [fenceGuardLines]

/-- A first line that does not open a fence fails the fence guard. -/
theorem fenceGuardLines_head_not_fence {l0 : List Char} {t : List (List Char)}
    (h : fenceCheck l0 = false) : fenceGuardLines (l0 :: t) = false := by
  unfold fenceGuardLines
  rw [show (l0 :: t).headD [] = l0 from rfl, h]
  simp

/-- The fence guard is invariant under step 3 (line-ending normalization
and BOM removal). -/
theorem fenceGuard_normalizeEOL (y : List Char) :
    fenceGuard (normalizeEOL y) = fenceGuard y := by
  unfold fenceGuard
  have hsplit : splitLines (normalizeEOL y) = (splitLines y).modifyHead stripBOM := by
    unfold normalizeEOL
    rw [splitLines_normEOL, splitLines_stripBOM]
  rw [hsplit]
  rcases hS : splitLines y with _ | ⟨l0, rest⟩
  · exact absurd hS (splitLines_ne_nil y)
  · simp only [List.modifyHead]
    rcases rest with _ | ⟨l1, rest'⟩
    · rw [fenceGuardLines_singleton, fenceGuardLines_singleton]
    · rw [fenceGuardLines_cons2, fenceGuardLines_cons2, fenceCheck_stripBOM,
        getLastD_ne_nil (List.cons_ne_nil l1 rest') (stripBOM l0) l0]

/-- A text starting with an opening bracket fails the fence guard. -/
theorem fenceGuard_open_head {c : Char} {cs : List Char} (h : isOpenBr c = true) :
    fenceGuard (c :: cs) = false := by
  have hc : c = '{' ∨ c = '[' := by simpa [isOpenBr] using h
  have h2 : c ≠ '\r' ∧ c ≠ '\n' ∧ isBOMChar c = false ∧ c ≠ '`' := by
    rcases hc with hq | hq <;> subst hq <;> exact ⟨by decide, by decide, by decide, by decide⟩
  unfold fenceGuard
  rw [splitLines.eq_5 c cs (fun _ hv _ => h2.1 hv) h2.1 h2.2.1]
  refine fenceGuardLines_head_not_fence ?_
  unfold fenceCheck
  rw [List.dropWhile_cons_of_neg (by simp [h2.2.2.1])]
  simp [backticks, h2.2.2.2]

/-- The output of the fence-stripping step never passes the fence guard
again. -/
theorem fenceGuard_fenceStrip (cs : List Char) : fenceGuard (fenceStrip cs) = false := by
  by_cases hG : fenceGuard cs = true
  · have hstrip : fenceStrip cs = joinLines (fenceMiddle (splitLines cs)) := by
      unfold fenceStrip; rw [if_pos hG]
    rw [hstrip]
    unfold fenceGuard at hG ⊢
    unfold fenceGuardLines at hG
    simp only [Bool.and_eq_true] at hG
    obtain ⟨⟨⟨⟨_, hBfc⟩, _⟩, hDall⟩, hEne⟩ := hG
    have hMne : fenceMiddle (splitLines cs) ≠ [] := by
      intro hq
      rw [hq] at hEne
      simp [joinLines] at hEne
    have hbf : ∀ l ∈ fenceMiddle (splitLines cs), ∀ c ∈ l, c ≠ '\n' ∧ c ≠ '\r' := by
      intro l hl
      refine mem_splitLines_no_break cs l ?_
      exact List.drop_subset 1 _ (List.dropLast_subset _ hl)
    rw [splitLines_joinLines _ hMne hbf]
    rcases hM : fenceMiddle (splitLines cs) with _ | ⟨m0, mrest⟩
    · exact absurd hM hMne
    · refine fenceGuardLines_head_not_fence ?_
      have := List.all_eq_true.1 hDall m0 (by rw [hM]; exact List.mem_cons_self _ _)
      simpa using this
  · have hstrip : fenceStrip cs = cs := by unfold fenceStrip; rw [if_neg hG]
    rw [hstrip]
    simpa using hG

/-- `trimToSpan` either leaves the text unchanged or returns a span headed
by an opening bracket. -/
theorem trimToSpan_cases (y : List Char) :
    trimToSpan y = y ∨ ∃ c r, trimToSpan y = c :: r ∧ isOpenBr c = true := by
  rcases h : scanBalanced (y.dropWhile (fun c => !isOpenBr c)) 0 with _ | span
  · exact Or.inl (by unfold trimToSpan; rw [h])
  · rcases trimToSpan_span_head h with ⟨c, r, hspan, hopen⟩
    exact Or.inr ⟨c, r, by unfold trimToSpan; rw [h, hspan], hopen⟩

/-- The three-step normalization pipeline is idempotent at the character
level. -/
theorem normalizeChars_idem (cs : List Char) :
    normalizeChars (normalizeChars cs) = normalizeChars cs := by
  unfold normalizeChars
  have hguard : fenceGuard (normalizeEOL (trimToSpan (fenceStrip cs))) = false := by
    rw [fenceGuard_normalizeEOL]
    rcases trimToSpan_cases (fenceStrip cs) with h | ⟨c, r, h, hopen⟩
    · rw [h]; exact fenceGuard_fenceStrip cs
    · rw [h]; exact fenceGuard_open_head hopen
  have h1 : fenceStrip (normalizeEOL (trimToSpan (fenceStrip cs)))
      = normalizeEOL (trimToSpan (fenceStrip cs)) := by
    conv_lhs => rw [fenceStrip]
    rw [hguard]
    simp
  rw [h1, trimToSpan_normalizeEOL, trimToSpan_idem, normalizeEOL_idem]

/-! ## StructuredParser

Modelled from the spec (§4.2): the parser implementation is absent from the
repository snapshot, so the five-strategy chain is modelled from the
specification's description: direct structured decode, escaped-literal
decode, host-language literal evaluation, markdown-fence extraction and
pattern-based salvage, each validated against the ProjectDocument
invariants before success. -/

/-- A parsed project document: relative-path-to-content map plus the stage
that produced it (spec §3). -/
structure ProjectDocument where
  files : List (String × String)
  stage_id : String
  deriving DecidableEq, Repr

/-- Record of one strategy attempt (spec §3). -/
structure ParseAttempt where
  strategy : String
  succeeded : Bool
  error : String
  deriving DecidableEq, Repr

/-- Terminal parser failure carrying all attempts (spec §4.2). -/
structure ParseFailure where
  attempts : List ParseAttempt
  deriving DecidableEq, Repr

/-- Restricted literal values: maps, arrays, strings, numbers, booleans and
null only (spec §9: no calls, attribute access or identifiers). -/
inductive JValue where
  | obj (fields : List (String × JValue))
  | arr (items : List JValue)
  | str (s : String)
  | num (raw : String)
  | bool (b : Bool)
  | null

/-- Dialect flags distinguishing the standard interchange decode from the
host-language literal evaluation. -/
structure Dialect where
  singleQuotes : Bool
  pyWords : Bool
  deriving DecidableEq, Repr

/-- Standard interchange dialect (strategy 1 and 2). -/
def jsonDialect : Dialect := ⟨false, false⟩

/-- Host-language literal dialect (strategy 3): single-quoted strings and
capitalized keywords allowed. -/
def literalDialect : Dialect := ⟨true, true⟩

/-- Interchange whitespace. -/
def isJsonWS (c : Char) : Bool := c = ' ' || c = '\n' || c = '\t' || c = '\r'

/-- Match a literal token prefix, returning the remainder. -/
def matchLit : List Char → List Char → Option (List Char)
  | [], cs => some cs
  | _, [] => none
  | p :: ps, c :: cs => if p = c then matchLit ps cs else none

/-- Does the line start with the given literal? -/
def startsWithLit : List Char → List Char → Bool
  | [], _ => true
  | _, [] => false
  | p :: ps, c :: cs => p == c && startsWithLit ps cs

/-- Characters allowed inside a number literal. -/
def numChar (c : Char) : Bool :=
  c.isDigit || c = '-' || c = '+' || c = '.' || c = 'e' || c = 'E'

/-- Parse the body of a quoted string after the opening quote, decoding
common escapes. -/
def parseStringBody (q : Char) : Nat → List Char → Except String (String × List Char)
  | 0, _ => .error "fuel exhausted"
  | _ + 1, [] => .error "unterminated string"
  | fuel + 1, c :: cs =>
    if c = q then .ok ("", cs)
    else if c = '\\' then
      match cs with
      | [] => .error "dangling escape"
      | e :: cs2 =>
        let ec := if e = 'n' then '\n' else if e = 't' then '\t'
          else if e = 'r' then '\r' else e
        match parseStringBody q fuel cs2 with
        | .ok (s, rest) => .ok (String.mk (ec :: s.data), rest)
        | .error err => .error err
    else
      match parseStringBody q fuel cs with
      | .ok (s, rest) => .ok (String.mk (c :: s.data), rest)
      | .error err => .error err

mutual

/-- Modelled from the spec: recursive-descent decoder over the restricted
literal grammar (maps, arrays, strings, numbers, booleans, null); anything
else — identifiers, calls, attribute access — is rejected. -/
def parseValue (dia : Dialect) : Nat → List Char → Except String (JValue × List Char)
  | 0, _ => .error "fuel exhausted"
  | fuel + 1, cs0 =>
    match cs0.dropWhile isJsonWS with
    | [] => .error "unexpected end of input"
    | c :: rest =>
      if c = '{' then parseObjFields dia fuel rest []
      else if c = '[' then parseArrItems dia fuel rest []
      else if c = '"' then
        match parseStringBody '"' fuel rest with
        | .ok (s, r) => .ok (.str s, r)
        | .error e => .error e
      else if dia.singleQuotes && c = '\'' then
        match parseStringBody '\'' fuel rest with
        | .ok (s, r) => .ok (.str s, r)
        | .error e => .error e
      else if c.isDigit || c = '-' then
        .ok (.num (String.mk ((c :: rest).takeWhile numChar)),
          (c :: rest).dropWhile numChar)
      else
        match matchLit ['t','r','u','e'] (c :: rest) with
        | some r => .ok (.bool true, r)
        | none =>
        match matchLit ['f','a','l','s','e'] (c :: rest) with
        | some r => .ok (.bool false, r)
        | none =>
        match matchLit ['n','u','l','l'] (c :: rest) with
        | some r => .ok (.null, r)
        | none =>
        if dia.pyWords then
          match matchLit ['T','r','u','e'] (c :: rest) with
          | some r => .ok (.bool true, r)
          | none =>
          match matchLit ['F','a','l','s','e'] (c :: rest) with
          | some r => .ok (.bool false, r)
          | none =>
          match matchLit ['N','o','n','e'] (c :: rest) with
          | some r => .ok (.null, r)
          | none => .error "unexpected token"
        else .error "unexpected token"

/-- Parse object members after the opening brace. -/
def parseObjFields (dia : Dialect) :
    Nat → List Char → List (String × JValue) → Except String (JValue × List Char)
  | 0, _, _ => .error "fuel exhausted"
  | fuel + 1, cs0, acc =>
    match cs0.dropWhile isJsonWS with
    | [] => .error "unterminated object"
    | c :: rest =>
      if c = '}' then .ok (.obj acc, rest)
      else
        match
          (if c = '"' then parseStringBody '"' fuel rest
           else if dia.singleQuotes && c = '\'' then parseStringBody '\'' fuel rest
           else .error "expected string key") with
        | .error e => .error e
        | .ok (k, r1) =>
          match r1.dropWhile isJsonWS with
          | ':' :: r2 =>
            match parseValue dia fuel r2 with
            | .error e => .error e
            | .ok (v, r3) =>
              match r3.dropWhile isJsonWS with
              | ',' :: r4 => parseObjFields dia fuel r4 (acc ++ [(k, v)])
              | '}' :: r4 => .ok (.obj (acc ++ [(k, v)]), r4)
              | _ => .error "expected comma or closing brace"
          | _ => .error "expected colon"

/-- Parse array items after the opening bracket. -/
def parseArrItems (dia : Dialect) :
    Nat → List Char → List JValue → Except String (JValue × List Char)
  | 0, _, _ => .error "fuel exhausted"
  | fuel + 1, cs0, acc =>
    match cs0.dropWhile isJsonWS with
    | [] => .error "unterminated array"
    | c :: rest =>
      if c = ']' then .ok (.arr acc, rest)
      else
        match parseValue dia fuel (c :: rest) with
        | .error e => .error e
        | .ok (v, r1) =>
          match r1.dropWhile isJsonWS with
          | ',' :: r2 => parseArrItems dia fuel r2 (acc ++ [v])
          | ']' :: r2 => .ok (.arr (acc ++ [v]), r2)
          | _ => .error "expected comma or closing bracket"

end

/-- Decode an entire text as one literal value; trailing non-whitespace is
an error ("succeeds only if the whole text decodes", spec §4.2). -/
def decodeWhole (dia : Dialect) (t : String) : Except String JValue :=
  match parseValue dia (t.data.length * 4 + 16) t.data with
  | .error e => .error e
  | .ok (v, rest) =>
    if (rest.dropWhile isJsonWS).isEmpty then .ok v else .error "trailing characters"

/-- Extract a string value. -/
def jstrOnly : JValue → Option String
  | .str s => some s
  | _ => none

/-- Convert object fields to a files map when every value is a string. -/
def fieldsToFiles (fs : List (String × JValue)) : Option (List (String × String)) :=
  fs.mapM (fun kv => (jstrOnly kv.2).map (fun s => (kv.1, s)))

/-- Shape conformance (spec §4.2 strategy 1): a mapping from path-like keys
to string values, optionally nested one level under a `"files"` key. -/
def toFilesCandidate : JValue → Except String (List (String × String))
  | .obj fs =>
    match fs.find? (fun p => p.1 == "files") with
    | some kv =>
      match kv.2 with
      | .obj inner =>
        match fieldsToFiles inner with
        | some m => .ok m
        | none => .error "values under files key are not all strings"
      | _ => .error "files key is not an object"
    | none =>
      match fieldsToFiles fs with
      | some m => .ok m
      | none => .error "object values are not all strings"
  | _ => .error "decoded value is not an object"

/-- Strategy 2 preprocessing (spec §4.2): un-escape common double-escaping
artifacts — doubled backslashes before quotes and literal `\n`/`\t`
sequences — before decoding again. -/
def unescapeArtifacts : List Char → List Char
  | '\\' :: '\\' :: '"' :: cs => '\\' :: '"' :: unescapeArtifacts cs
  | '\\' :: 'n' :: cs => '\n' :: unescapeArtifacts cs
  | '\\' :: 't' :: cs => '\t' :: unescapeArtifacts cs
  | c :: cs => c :: unescapeArtifacts cs
  | [] => []

/-- Strategy 1: direct structured decode plus shape conformance. -/
def directDecode (t : String) : Except String (List (String × String)) :=
  match decodeWhole jsonDialect t with
  | .error e => .error e
  | .ok v => toFilesCandidate v

/-- Strategy 2: escaped-literal decode. -/
def escapedDecode (t : String) : Except String (List (String × String)) :=
  directDecode (String.mk (unescapeArtifacts t.data))

/-- Strategy 3: host-language literal evaluation through the restricted
non-executing literal grammar. -/
def literalEval (t : String) : Except String (List (String × String)) :=
  match decodeWhole literalDialect t with
  | .error e => .error e
  | .ok v => toFilesCandidate v

/-- A token looks like a path: it contains a path separator or a file
extension dot (spec §4.2 strategy 4). -/
def wordHasPathShape (w : List Char) : Bool := w.contains '/' || w.contains '.'

/-- Strip markdown punctuation from a token. -/
def trimPunct (w : List Char) : List Char :=
  let p : Char → Bool := fun c => c = '`' || c = '*' || c = '#' || c = ':' || c = ','
  ((w.dropWhile p).reverse.dropWhile p).reverse

/-- Split a line into space-separated words. -/
def splitWords : List Char → List (List Char)
  | [] => [[]]
  | ' ' :: cs => [] :: splitWords cs
  | c :: cs => (c :: (splitWords cs).headD []) :: (splitWords cs).tail

/-- A filename hint from a preceding heading or line: the first word that
looks like a path. -/
def headingHint (prev : List Char) : Option (List Char) :=
  ((splitWords prev).map trimPunct).find?
    (fun w => decide (w ≠ []) && wordHasPathShape w)

/-- Scanner state for markdown-fence extraction. -/
inductive FenceMode where
  | outside (prev : List Char)
  | inside (tag : List Char) (prev : List Char) (acc : List (List Char))

/-- Strategy 4 scanner: collect fenced blocks whose language tag looks like
a relative path, or whose preceding line hints at a filename. -/
def fenceScan : List (List Char) → FenceMode → List (String × String)
  | [], _ => []
  | l :: rest, .outside prev =>
    if startsWithLit backticks l then
      fenceScan rest (.inside (trimWS (l.drop 3)) prev [])
    else fenceScan rest (.outside l)
  | l :: rest, .inside tag prev acc =>
    if startsWithLit backticks l then
      let tagT := trimPunct tag
      match (if decide (tagT ≠ []) && wordHasPathShape tagT then some tagT
             else headingHint prev) with
      | some p =>
        (String.mk p, String.mk (joinLines acc.reverse)) :: fenceScan rest (.outside [])
      | none => fenceScan rest (.outside [])
    else fenceScan rest (.inside tag prev (l :: acc))

/-- Strategy 4: markdown-fence extraction; succeeds only if at least one
block was extracted. -/
def fenceExtract (t : String) : Except String (List (String × String)) :=
  match fenceScan (splitLines t.data) (.outside []) with
  | [] => .error "no fenced file blocks found"
  | ps => .ok ps

/-- Scanner state for pattern-based salvage. -/
inductive SalvageMode where
  | seekPath
  | seekContent (path : List Char)
  | collect (path : List Char) (acc : List (List Char))

/-- Strategy 5 scanner: recognize `path: <value>` / `content:` / block
pairings anywhere in the free text. -/
def salvageScan : List (List Char) → SalvageMode → List (String × String)
  | [], .collect p acc => [(String.mk (trimWS p), String.mk (joinLines acc.reverse))]
  | [], _ => []
  | l :: rest, .seekPath =>
    if startsWithLit ['p','a','t','h',':'] l then
      salvageScan rest (.seekContent (l.drop 5))
    else salvageScan rest .seekPath
  | l :: rest, .seekContent p =>
    if startsWithLit ['c','o','n','t','e','n','t',':'] l then
      salvageScan rest (.collect p [])
    else if startsWithLit ['p','a','t','h',':'] l then
      salvageScan rest (.seekContent (l.drop 5))
    else salvageScan rest .seekPath
  | l :: rest, .collect p acc =>
    if startsWithLit ['p','a','t','h',':'] l then
      (String.mk (trimWS p), String.mk (joinLines acc.reverse))
        :: salvageScan rest (.seekContent (l.drop 5))
    else salvageScan rest (.collect p (l :: acc))

/-- Strategy 5: pattern-based salvage; succeeds only if at least one pair
with non-empty path and non-empty content is recognized. -/
def patternSalvage (t : String) : Except String (List (String × String)) :=
  match (salvageScan (splitLines t.data) .seekPath).filter
      (fun kv => decide (kv.1 ≠ "") && decide (kv.2 ≠ "")) with
  | [] => .error "no path and content pairs recognized"
  | ps => .ok ps

/-- Split a path into forward-slash segments. -/
def splitOnSlash : List Char → List (List Char)
  | [] => [[]]
  | '/' :: cs => [] :: splitOnSlash cs
  | c :: cs => (c :: (splitOnSlash cs).headD []) :: (splitOnSlash cs).tail

/-- A normalized relative path (spec §3): non-empty, forward-slash
separated, no leading slash, no backslashes, and no empty, `.` or `..`
segments. -/
def pathOk (p : String) : Bool :=
  let cs := p.data
  decide (cs ≠ []) && decide (cs.head? ≠ some '/') && !(cs.contains '\\') &&
    (splitOnSlash cs).all
      (fun seg => decide (seg ≠ []) && decide (seg ≠ ['.', '.']) && decide (seg ≠ ['.']))

/-- Validation of a candidate file map against the ProjectDocument
invariants (spec §4.2): non-empty file set, normalized traversal-free
paths, unique paths.  Traversal and duplicate violations are
`PathViolation` (spec §7); an empty candidate is a strategy failure. -/
def validateFiles (files : List (String × String)) :
    Except String (List (String × String)) :=
  if files.isEmpty then .error "empty file set"
  else if !(files.all (fun kv => pathOk kv.1)) then .error "PathViolation"
  else if !(decide (files.map Prod.fst).Nodup) then .error "PathViolation"
  else .ok files

/-- Run one strategy and validate its candidate; failures are recorded as
a `ParseAttempt`. -/
def stratRun (name : String) (f : String → Except String (List (String × String)))
    (stage t : String) : Except ParseAttempt ProjectDocument :=
  match f t with
  | .error e => .error ⟨name, false, e⟩
  | .ok files =>
    match validateFiles files with
    | .error e => .error ⟨name, false, e⟩
    | .ok files' => .ok ⟨files', stage⟩

/-- The fixed ordered strategy chain (spec §4.2). -/
def strategyList : List (String × (String → Except String (List (String × String)))) :=
  [("direct", directDecode), ("escaped", escapedDecode), ("literal_eval", literalEval),
   ("markdown_fence", fenceExtract), ("pattern_salvage", patternSalvage)]

/-- The strategy names in chain order. -/
def strategyNames : List String :=
  ["direct", "escaped", "literal_eval", "markdown_fence", "pattern_salvage"]

/-- The outcome of every strategy on a given input, in chain order. -/
def strategyResults (stage t : String) : List (Except ParseAttempt ProjectDocument) :=
  strategyList.map (fun p => stratRun p.1 p.2 stage t)

/-- First-success-wins fold over strategy outcomes, accumulating failed
attempts in order. -/
def firstOk : List (Except ParseAttempt ProjectDocument) → List ParseAttempt →
    Except ParseFailure ProjectDocument
  | [], acc => .error ⟨acc⟩
  | .ok d :: _, _ => .ok d
  | .error a :: rest, acc => firstOk rest (acc ++ [a])

/-- Modelled from the spec: `StructuredParser.parse` — try the five
strategies in fixed order; first success wins; when all fail, fail with the
full ordered attempt list. -/
def parse (stage t : String) : Except ParseFailure ProjectDocument :=
  firstOk (strategyResults stage t) []

deriving instance DecidableEq for Except

/-! ### Parser lemmas -/

/-- Is a strategy outcome a failure? -/
def isErr {α β : Type} : Except α β → Bool
  | .error _ => true
  | .ok _ => false

/-- The attempts recorded by a list of strategy outcomes, in order. -/
def errList (rs : List (Except ParseAttempt ProjectDocument)) : List ParseAttempt :=
  rs.filterMap (fun r => match r with | .error a => some a | .ok _ => none)

/-- When the chain fails, every strategy failed and the attempts are the
accumulated prefix plus all failures in order. -/
theorem firstOk_error : ∀ (rs : List (Except ParseAttempt ProjectDocument))
    (acc : List ParseAttempt) (pf : ParseFailure), firstOk rs acc = .error pf →
    (∀ r ∈ rs, isErr r = true) ∧ pf.attempts = acc ++ errList rs := by
  intro rs
  induction rs with
  | nil =>
    intro acc pf h
    refine ⟨by simp, ?_⟩
    injection h with h
    rw [← h]
    simp [errList]
  | cons r rest ih =>
    intro acc pf h
    rcases r with a | d
    · have h' : firstOk rest (acc ++ [a]) = .error pf := h
      rcases ih _ _ h' with ⟨hall, hatts⟩
      refine ⟨?_, ?_⟩
      · intro r hr
        rcases List.mem_cons.1 hr with h'' | h''
        · subst h''; rfl
        · exact hall r h''
      · rw [hatts]
        simp [errList]
    · simp [firstOk] at h

/-- When the chain succeeds, some strategy succeeded with that document and
every earlier strategy failed. -/
theorem firstOk_ok : ∀ (rs : List (Except ParseAttempt ProjectDocument))
    (acc : List ParseAttempt) (d : ProjectDocument), firstOk rs acc = .ok d →
    ∃ i, ∃ h : i < rs.length, rs.get ⟨i, h⟩ = .ok d ∧
      ∀ j (hj : j < rs.length), j < i → isErr (rs.get ⟨j, hj⟩) = true := by
  intro rs
  induction rs with
  | nil => intro acc d h; simp [firstOk] at h
  | cons r rest ih =>
    intro acc d h
    rcases r with a | d'
    · have h' : firstOk rest (acc ++ [a]) = .ok d := h
      rcases ih _ _ h' with ⟨i, hi, hget, hprev⟩
      refine ⟨i + 1, by simpa using Nat.succ_lt_succ hi, by simpa using hget, ?_⟩
      intro j hj hji
      rcases j with _ | j'
      · rfl
      · have hj' : j' < rest.length := by simpa using hj
        have := hprev j' hj' (by omega)
        simpa using this
    · have hd : d' = d := by simpa [firstOk] using h
      subst hd
      exact ⟨0, by simp, rfl, fun j hj hji => by omega⟩

/-- A failed strategy attempt carries the strategy's name and a false
success flag. -/
theorem stratRun_error_fields {n : String} {f : String → Except String (List (String × String))}
    {st t : String} {a : ParseAttempt} (h : stratRun n f st t = .error a) :
    a.strategy = n ∧ a.succeeded = false := by
  unfold stratRun at h
  rcases hf : f t with e | files
  · rw [hf] at h
    injection h with h
    rw [← h]
    exact ⟨rfl, rfl⟩
  · rw [hf] at h
    dsimp only at h
    rcases hv : validateFiles files with e | files'
    · rw [hv] at h
      injection h with h
      rw [← h]
      exact ⟨rfl, rfl⟩
    · rw [hv] at h
      cases h

/-- A successful validation returns its input unchanged and certifies the
document invariants. -/
theorem validateFiles_ok {files files' : List (String × String)}
    (h : validateFiles files = .ok files') :
    files' = files ∧ files ≠ [] ∧ (∀ kv ∈ files, pathOk kv.1 = true) ∧
      (files.map Prod.fst).Nodup := by
  unfold validateFiles at h
  cases h1 : files.isEmpty
  · rw [h1] at h
    simp only [Bool.false_eq_true, if_false] at h
    cases hall : files.all (fun kv => pathOk kv.1)
    · rw [hall] at h; simp at h
    · rw [hall] at h
      simp only [Bool.not_true, Bool.false_eq_true, if_false] at h
      cases hnd : decide (files.map Prod.fst).Nodup
      · rw [hnd] at h; simp at h
      · rw [hnd] at h
        simp only [Bool.not_true, Bool.false_eq_true, if_false] at h
        injection h with h
        refine ⟨h.symm, ?_, ?_, of_decide_eq_true hnd⟩
        · intro hq; subst hq; simp at h1
        · intro kv hkv
          exact List.all_eq_true.1 hall kv hkv
  · rw [h1] at h; simp at h

/-- A candidate containing any invalid path is rejected with
`PathViolation`. -/
theorem validateFiles_pathViolation {files : List (String × String)} {kv : String × String}
    (hmem : kv ∈ files) (hbad : pathOk kv.1 = false) :
    validateFiles files = .error "PathViolation" := by
  unfold validateFiles
  have h1 : files.isEmpty = false := by
    rcases files with _ | ⟨x, l⟩
    · simp at hmem
    · rfl
  have hall : files.all (fun kv => pathOk kv.1) = false := by
    cases hq : files.all (fun kv => pathOk kv.1)
    · rfl
    · exfalso
      have := List.all_eq_true.1 hq kv hmem
      rw [hbad] at this
      exact Bool.false_ne_true this
  rw [h1, hall]
  simp

/-- A successfully parsed document satisfies the ProjectDocument
invariants. -/
theorem stratRun_ok_valid {n : String} {f : String → Except String (List (String × String))}
    {st t : String} {d : ProjectDocument} (h : stratRun n f st t = .ok d) :
    d.stage_id = st ∧ d.files ≠ [] ∧ (∀ kv ∈ d.files, pathOk kv.1 = true) ∧
      (d.files.map Prod.fst).Nodup := by
  unfold stratRun at h
  rcases hf : f t with e | files
  · rw [hf] at h; cases h
  · rw [hf] at h
    dsimp only at h
    rcases hv : validateFiles files with e | files'
    · rw [hv] at h; cases h
    · rw [hv] at h
      injection h with h
      rw [← h]
      rcases validateFiles_ok hv with ⟨hfe, hne, hpaths, hnd⟩
      subst hfe
      exact ⟨rfl, hne, hpaths, hnd⟩

/-! ## ProjectAssembler

Modelled from the spec (§4.3): the assembler implementation is absent from
the repository snapshot.  The on-disk tree is a finite map from relative
path to content; the write environment is a predicate on paths saying
which writes succeed (a failed write models a disallowed character or a
disk-full condition). -/

/-- Manifest entry: one per file ultimately written (spec §3). -/
structure ManifestEntry where
  path : String
  stage_id : String
  byteLength : Nat
  contentHash : Nat
  deriving DecidableEq, Repr

/-- Conflict record: path, all stage ids that attempted to write it, and
the resolution taken (spec §3). -/
structure ConflictEntry where
  path : String
  stage_ids : List String
  resolution : String
  deriving DecidableEq, Repr

/-- The final aggregate manifest (spec §3), including per-path write-error
records (spec §4.3). -/
structure ProjectManifest where
  root : String
  entries : List ManifestEntry
  conflicts : List ConflictEntry
  errors : List (String × String)
  deriving DecidableEq, Repr

/-- The materialized tree: a finite map from relative path to content. -/
abbrev FS := List (String × String)

/-- Read a path from the tree. -/
def fsGet : FS → String → Option String
  | [], _ => none
  | (q, c) :: rest, p => if q = p then some c else fsGet rest p

/-- Write a path: replace in place when present, append when fresh. -/
def fsWrite : FS → String → String → FS
  | [], p, c => [(p, c)]
  | (q, c0) :: rest, p, c =>
    if q = p then (q, c) :: rest else (q, c0) :: fsWrite rest p c

/-- Deterministic content hash recorded in manifest entries. -/
def contentHash (c : String) : Nat :=
  c.data.foldl (fun h ch => (h * 31 + ch.toNat) % 2 ^ 64) 7

/-- The manifest entry for one written file. -/
def mkEntry (p stage c : String) : ManifestEntry :=
  ⟨p, stage, c.utf8ByteSize, contentHash c⟩

/-- Find the manifest entry for a path. -/
def entriesFind : List ManifestEntry → String → Option ManifestEntry
  | [], _ => none
  | e :: rest, p => if e.path = p then some e else entriesFind rest p

/-- Replace the manifest entry for the updated path. -/
def entriesUpdate : List ManifestEntry → ManifestEntry → List ManifestEntry
  | [], e => [e]
  | e0 :: rest, e => if e0.path = e.path then e :: rest else e0 :: entriesUpdate rest e

/-- Find the conflict record for a path. -/
def conflictsFind : List ConflictEntry → String → Option ConflictEntry
  | [], _ => none
  | c :: rest, p => if c.path = p then some c else conflictsFind rest p

/-- Record a conflict: extend an existing record for the path, or create a
new one listing both contributing stages, resolution `"overwritten"`
(spec §4.3 last-writer-wins). -/
def conflictsAdd : List ConflictEntry → String → String → String → List ConflictEntry
  | [], p, prevStage, newStage => [⟨p, [prevStage, newStage], "overwritten"⟩]
  | c0 :: rest, p, prevStage, newStage =>
    if c0.path = p then ⟨p, c0.stage_ids ++ [newStage], "overwritten"⟩ :: rest
    else c0 :: conflictsAdd rest p prevStage newStage

/-- Assembler state built incrementally as documents are merged. -/
structure AsmState where
  fs : FS
  entries : List ManifestEntry
  conflicts : List ConflictEntry
  errors : List (String × String)
  deriving DecidableEq, Repr

/-- Merge one file of one document (spec §4.3): fresh paths are written and
recorded; already-written paths are conflicts resolved last-writer-wins
with the conflict recorded; a failed write is recorded as a per-path error
and does not abort the remaining files. -/
def writeOne (writeOk : String → Bool) (stage : String) (st : AsmState)
    (pc : String × String) : AsmState :=
  match entriesFind st.entries pc.1 with
  | none =>
    if writeOk pc.1 then
      { st with
        fs := fsWrite st.fs pc.1 pc.2,
        entries := st.entries ++ [mkEntry pc.1 stage pc.2] }
    else
      { st with errors := st.errors ++ [(pc.1, "WriteFailure")] }
  | some e0 =>
    if writeOk pc.1 then
      { st with
        fs := fsWrite st.fs pc.1 pc.2,
        entries := entriesUpdate st.entries (mkEntry pc.1 stage pc.2),
        conflicts := conflictsAdd st.conflicts pc.1 e0.stage_id stage }
    else
      { st with
        conflicts := conflictsAdd st.conflicts pc.1 e0.stage_id stage,
        errors := st.errors ++ [(pc.1, "WriteFailure")] }

/-- Merge one document's files in order. -/
def writeDoc (writeOk : String → Bool) (st : AsmState) (doc : ProjectDocument) : AsmState :=
  doc.files.foldl (writeOne writeOk doc.stage_id) st

/-- Modelled from the spec: `ProjectAssembler.assemble` — merge the
documents in stage order into an empty root and finalize the manifest. -/
def assemble (writeOk : String → Bool) (docs : List ProjectDocument)
    (root : String) : FS × ProjectManifest :=
  let st := docs.foldl (writeDoc writeOk) ⟨[], [], [], []⟩
  (st.fs, ⟨root, st.entries, st.conflicts, st.errors⟩)

/-! ### Assembler lemmas -/

/-- Reading back a written path yields the written content. -/
theorem fsGet_fsWrite_self : ∀ (fs : FS) (p c : String),
    fsGet (fsWrite fs p c) p = some c := by
  intro fs p c
  induction fs with
  | nil => simp [fsWrite, fsGet]
  | cons qc rest ih =>
    rcases qc with ⟨q, c0⟩
    by_cases hq : q = p
    · simp [fsWrite, fsGet, hq]
    · simp [fsWrite, fsGet, hq, ih]

/-- Writing one path leaves other paths unchanged. -/
theorem fsGet_fsWrite_ne : ∀ (fs : FS) (q p c : String), q ≠ p →
    fsGet (fsWrite fs q c) p = fsGet fs p := by
  intro fs q p c hne
  induction fs with
  | nil => simp [fsWrite, fsGet, hne]
  | cons rc rest ih =>
    rcases rc with ⟨r, c0⟩
    by_cases hr : r = q
    · subst hr; simp [fsWrite, fsGet, hne]
    · simp [fsWrite, fsGet, hr, ih]

/-- A fresh path appends to the key list. -/
theorem fsWrite_keys_not_mem : ∀ (fs : FS) (p c : String), p ∉ fs.map Prod.fst →
    (fsWrite fs p c).map Prod.fst = fs.map Prod.fst ++ [p] := by
  intro fs p c hmem
  induction fs with
  | nil => rfl
  | cons qc rest ih =>
    rcases qc with ⟨q, c0⟩
    simp only [List.map_cons, List.mem_cons] at hmem
    push_neg at hmem
    simp [fsWrite, Ne.symm hmem.1, ih hmem.2]

/-- Overwriting an existing path preserves the key list. -/
theorem fsWrite_keys_mem : ∀ (fs : FS) (p c : String), p ∈ fs.map Prod.fst →
    (fsWrite fs p c).map Prod.fst = fs.map Prod.fst := by
  intro fs p c hmem
  induction fs with
  | nil => simp at hmem
  | cons qc rest ih =>
    rcases qc with ⟨q, c0⟩
    by_cases hq : q = p
    · simp [fsWrite, hq]
    · simp only [List.map_cons, List.mem_cons] at hmem
      rcases hmem with h | h
      · exact absurd h.symm hq
      · simp [fsWrite, hq, ih h]

/-- Appending an entry for another path does not change a lookup. -/
theorem entriesFind_append_ne : ∀ (es : List ManifestEntry) (e : ManifestEntry)
    (p : String), e.path ≠ p → entriesFind (es ++ [e]) p = entriesFind es p := by
  intro es e p hne
  induction es with
  | nil => simp [entriesFind, hne]
  | cons e0 rest ih =>
    by_cases h0 : e0.path = p
    · simp [entriesFind, h0]
    · simp [entriesFind, h0, ih]

/-- Appending an entry for an absent path makes it found. -/
theorem entriesFind_append_self : ∀ (es : List ManifestEntry) (e : ManifestEntry)
    (p : String), entriesFind es p = none → e.path = p →
    entriesFind (es ++ [e]) p = some e := by
  intro es e p hnone hp
  induction es with
  | nil => simp [entriesFind, hp]
  | cons e0 rest ih =>
    by_cases h0 : e0.path = p
    · simp [entriesFind, h0] at hnone
    · simp [entriesFind, h0] at hnone ⊢
      exact ih hnone

/-- Updating with an entry makes that entry found at its path. -/
theorem entriesFind_update_self : ∀ (es : List ManifestEntry) (e : ManifestEntry),
    entriesFind (entriesUpdate es e) e.path = some e := by
  intro es e
  induction es with
  | nil => simp [entriesUpdate, entriesFind]
  | cons e0 rest ih =>
    by_cases h0 : e0.path = e.path
    · simp [entriesUpdate, entriesFind, h0]
    · simp [entriesUpdate, entriesFind, h0, ih]

/-- Updating an entry leaves lookups of other paths unchanged. -/
theorem entriesFind_update_ne : ∀ (es : List ManifestEntry) (e : ManifestEntry)
    (p : String), e.path ≠ p → entriesFind (entriesUpdate es e) p = entriesFind es p := by
  intro es e p hne
  induction es with
  | nil => simp [entriesUpdate, entriesFind, hne]
  | cons e0 rest ih =>
    by_cases h0 : e0.path = e.path
    · rw [show entriesUpdate (e0 :: rest) e = e :: rest from by simp [entriesUpdate, h0]]
      simp [entriesFind, hne, h0.symm ▸ hne]
    · rw [show entriesUpdate (e0 :: rest) e = e0 :: entriesUpdate rest e from by
        simp [entriesUpdate, h0]]
      by_cases hp : e0.path = p
      · simp [entriesFind, hp]
      · simp [entriesFind, hp, ih]

/-- A path without an entry is not among the entry paths. -/
theorem entriesFind_none_not_mem : ∀ (es : List ManifestEntry) (p : String),
    entriesFind es p = none → p ∉ es.map ManifestEntry.path := by
  intro es p hnone
  induction es with
  | nil => simp
  | cons e0 rest ih =>
    by_cases h0 : e0.path = p
    · simp [entriesFind, h0] at hnone
    · simp [entriesFind, h0] at hnone
      simp [h0, ih hnone]
      exact fun hq => absurd hq.symm h0

/-- A found path is among the entry paths. -/
theorem entriesFind_some_mem : ∀ (es : List ManifestEntry) (p : String)
    (e : ManifestEntry), entriesFind es p = some e → p ∈ es.map ManifestEntry.path := by
  intro es p e hsome
  induction es with
  | nil => simp [entriesFind] at hsome
  | cons e0 rest ih =>
    by_cases h0 : e0.path = p
    · simp [h0]
    · simp [entriesFind, h0] at hsome
      simp [ih hsome]

/-- Updating an existing path preserves the path list of the entries. -/
theorem entriesUpdate_map_path : ∀ (es : List ManifestEntry) (e e0 : ManifestEntry),
    entriesFind es e.path = some e0 →
    (entriesUpdate es e).map ManifestEntry.path = es.map ManifestEntry.path := by
  intro es e e0 hfind
  induction es with
  | nil => simp [entriesFind] at hfind
  | cons e1 rest ih =>
    by_cases h1 : e1.path = e.path
    · rw [show entriesUpdate (e1 :: rest) e = e :: rest from by simp [entriesUpdate, h1]]
      simp [h1]
    · simp [entriesFind, h1] at hfind
      rw [show entriesUpdate (e1 :: rest) e = e1 :: entriesUpdate rest e from by
        simp [entriesUpdate, h1]]
      simp [ih hfind]

/-- A new conflict record lists both contributing stages with resolution
`"overwritten"`. -/
theorem conflictsFind_add_self : ∀ (cs : List ConflictEntry) (p s1 s2 : String),
    conflictsFind cs p = none →
    conflictsFind (conflictsAdd cs p s1 s2) p = some ⟨p, [s1, s2], "overwritten"⟩ := by
  intro cs p s1 s2 hnone
  induction cs with
  | nil => simp [conflictsAdd, conflictsFind]
  | cons c0 rest ih =>
    by_cases h0 : c0.path = p
    · simp [conflictsFind, h0] at hnone
    · simp [conflictsFind, h0] at hnone
      simp [conflictsAdd, conflictsFind, h0, ih hnone]

/-- Recording a conflict for one path leaves other paths' records
unchanged. -/
theorem conflictsFind_add_ne : ∀ (cs : List ConflictEntry) (q p s1 s2 : String),
    q ≠ p → conflictsFind (conflictsAdd cs q s1 s2) p = conflictsFind cs p := by
  intro cs q p s1 s2 hne
  induction cs with
  | nil => simp [conflictsAdd, conflictsFind, hne]
  | cons c0 rest ih =>
    by_cases h0 : c0.path = q
    · simp [conflictsAdd, conflictsFind, h0, hne]
    · simp only [conflictsAdd, h0, if_false]
      by_cases hp : c0.path = p
      · simp [conflictsFind, hp]
      · simp [conflictsFind, hp, ih]

/-- A found conflict record is in the conflict list. -/
theorem conflictsFind_mem : ∀ (cs : List ConflictEntry) (p : String)
    (ce : ConflictEntry), conflictsFind cs p = some ce → ce ∈ cs := by
  intro cs p ce hfound
  induction cs with
  | nil => simp [conflictsFind] at hfound
  | cons c0 rest ih =>
    by_cases h0 : c0.path = p
    · simp [conflictsFind, h0] at hfound
      simp [hfound]
    · simp [conflictsFind, h0] at hfound
      simp [ih hfound]

/-- Merging a file at another path preserves a path's content, manifest
entry and conflict record. -/
theorem writeOne_preserves (wo : String → Bool) (stage : String) (st : AsmState)
    (pc : String × String) (p : String) (hne : pc.1 ≠ p) :
    fsGet (writeOne wo stage st pc).fs p = fsGet st.fs p ∧
    entriesFind (writeOne wo stage st pc).entries p = entriesFind st.entries p ∧
    conflictsFind (writeOne wo stage st pc).conflicts p = conflictsFind st.conflicts p := by
  unfold writeOne
  rcases hf : entriesFind st.entries pc.1 with _ | e0 <;> dsimp only
  · cases hw : wo pc.1
    · rw [if_neg (by simp)]
      exact ⟨rfl, rfl, rfl⟩
    · rw [if_pos rfl]
      exact ⟨fsGet_fsWrite_ne _ _ _ _ hne, entriesFind_append_ne _ _ _ hne, rfl⟩
  · cases hw : wo pc.1
    · rw [if_neg (by simp)]
      exact ⟨rfl, rfl, conflictsFind_add_ne _ _ _ _ _ hne⟩
    · rw [if_pos rfl]
      exact ⟨fsGet_fsWrite_ne _ _ _ _ hne, entriesFind_update_ne _ _ _ hne,
        conflictsFind_add_ne _ _ _ _ _ hne⟩

/-- Folding a file list whose paths all differ from `p` preserves `p`'s
content, entry and conflict record. -/
theorem foldl_writeOne_preserves (wo : String → Bool) (stage : String) :
    ∀ (l : List (String × String)) (st : AsmState) (p : String),
    (∀ q ∈ l.map Prod.fst, q ≠ p) →
    fsGet (l.foldl (writeOne wo stage) st).fs p = fsGet st.fs p ∧
    entriesFind (l.foldl (writeOne wo stage) st).entries p = entriesFind st.entries p ∧
    conflictsFind (l.foldl (writeOne wo stage) st).conflicts p
      = conflictsFind st.conflicts p := by
  intro l
  induction l with
  | nil => intro st p _; exact ⟨rfl, rfl, rfl⟩
  | cons pc rest ih =>
    intro st p h
    have hne : pc.1 ≠ p := h pc.1 (by simp)
    have h1 := writeOne_preserves wo stage st pc p hne
    have h2 := ih (writeOne wo stage st pc) p (fun q hq => h q (by simp [hq]))
    exact ⟨h2.1.trans h1.1, h2.2.1.trans h1.2.1, h2.2.2.trans h1.2.2⟩

/-- Merging one file never discards error records. -/
theorem writeOne_errors_mono (wo : String → Bool) (stage : String) (st : AsmState)
    (pc : String × String) {x : String × String} (hx : x ∈ st.errors) :
    x ∈ (writeOne wo stage st pc).errors := by
  unfold writeOne
  rcases hf : entriesFind st.entries pc.1 with _ | e0 <;> dsimp only <;>
    cases hw : wo pc.1
  · rw [if_neg (by simp)]; simp [hx]
  · rw [if_pos rfl]; exact hx
  · rw [if_neg (by simp)]; simp [hx]
  · rw [if_pos rfl]; exact hx

/-- Folding a file list never discards error records. -/
theorem foldl_errors_mono (wo : String → Bool) (stage : String) :
    ∀ (l : List (String × String)) (st : AsmState) (x : String × String),
    x ∈ st.errors → x ∈ (l.foldl (writeOne wo stage) st).errors := by
  intro l
  induction l with
  | nil => intro st x hx; exact hx
  | cons pc rest ih =>
    intro st x hx
    exact ih _ _ (writeOne_errors_mono wo stage st pc hx)

/-- Merging a sequence of documents never discards error records. -/
theorem foldl_docs_errors_mono (wo : String → Bool) :
    ∀ (ds : List ProjectDocument) (st : AsmState) (x : String × String),
    x ∈ st.errors → x ∈ (ds.foldl (writeDoc wo) st).errors := by
  intro ds
  induction ds with
  | nil => intro st x hx; exact hx
  | cons d rest ih =>
    intro st x hx
    exact ih _ _ (foldl_errors_mono wo d.stage_id d.files st x hx)

/-- A failed write records exactly one `WriteFailure` error entry for the
path, in both the fresh and the conflict case. -/
theorem writeOne_error_entry (wo : String → Bool) (stage : String) (st : AsmState)
    (pc : String × String) (hbad : wo pc.1 = false) :
    (writeOne wo stage st pc).errors = st.errors ++ [(pc.1, "WriteFailure")] := by
  unfold writeOne
  rcases hf : entriesFind st.entries pc.1 with _ | e0 <;> dsimp only <;>
    rw [hbad, if_neg (by simp)]

/-- A successful write sets the path's content and manifest entry. -/
theorem writeOne_self (wo : String → Bool) (stage : String) (st : AsmState)
    (p c : String) (hok : wo p = true) :
    fsGet (writeOne wo stage st (p, c)).fs p = some c ∧
    entriesFind (writeOne wo stage st (p, c)).entries p = some (mkEntry p stage c) := by
  unfold writeOne
  rcases hf : entriesFind st.entries p with _ | e0 <;> dsimp only <;> rw [hok, if_pos rfl]
  · exact ⟨fsGet_fsWrite_self _ _ _, entriesFind_append_self _ _ _ hf rfl⟩
  · exact ⟨fsGet_fsWrite_self _ _ _, entriesFind_update_self _ _⟩

/-- A write into an already-written path records the conflict between the
previous entry's stage and the writing stage. -/
theorem writeOne_conflict (wo : String → Bool) (stage : String) (st : AsmState)
    (p c : String) (e0 : ManifestEntry) (hf : entriesFind st.entries p = some e0) :
    (writeOne wo stage st (p, c)).conflicts
      = conflictsAdd st.conflicts p e0.stage_id stage := by
  unfold writeOne
  rw [show entriesFind st.entries (p, c).1 = some e0 from hf]
  dsimp only
  cases hw : wo p
  · rw [if_neg (by simp)]
  · rw [if_pos rfl]

/-- A write into a fresh path records no conflict. -/
theorem writeOne_no_conflict (wo : String → Bool) (stage : String) (st : AsmState)
    (p c : String) (hf : entriesFind st.entries p = none) :
    (writeOne wo stage st (p, c)).conflicts = st.conflicts := by
  unfold writeOne
  rw [show entriesFind st.entries (p, c).1 = none from hf]
  dsimp only
  cases hw : wo p
  · rw [if_neg (by simp)]
  · rw [if_pos rfl]

/-- Merging a document whose paths are all fresh and unique records no
conflicts. -/
theorem foldl_no_conflicts (wo : String → Bool) (stage : String) :
    ∀ (l : List (String × String)) (st : AsmState),
    (∀ q ∈ l.map Prod.fst, entriesFind st.entries q = none) →
    (l.map Prod.fst).Nodup →
    (l.foldl (writeOne wo stage) st).conflicts = st.conflicts := by
  intro l
  induction l with
  | nil => intro st _ _; rfl
  | cons pc rest ih =>
    intro st hfresh hnd
    simp only [List.map_cons, List.nodup_cons] at hnd
    have hthis : entriesFind st.entries pc.1 = none := hfresh pc.1 (by simp)
    have hcons : (writeOne wo stage st pc).conflicts = st.conflicts := by
      rcases pc with ⟨p, c⟩
      exact writeOne_no_conflict wo stage st p c hthis
    have hfresh' : ∀ q ∈ rest.map Prod.fst,
        entriesFind (writeOne wo stage st pc).entries q = none := by
      intro q hq
      have hne : pc.1 ≠ q := fun hv => hnd.1 (hv ▸ hq)
      rw [(writeOne_preserves wo stage st pc q hne).2.1]
      exact hfresh q (by simp [hq])
    rw [List.foldl_cons, ih _ hfresh' hnd.2, hcons]

/-- After merging a file list with unique paths, a listed path holds its
listed content and carries its manifest entry. -/
theorem writeList_self (wo : String → Bool) (stage : String)
    (l : List (String × String)) (st : AsmState) (p c : String)
    (hmem : (p, c) ∈ l) (hnd : (l.map Prod.fst).Nodup) (hok : wo p = true) :
    fsGet (l.foldl (writeOne wo stage) st).fs p = some c ∧
    entriesFind (l.foldl (writeOne wo stage) st).entries p
      = some (mkEntry p stage c) := by
  obtain ⟨l1, l2, rfl⟩ := List.append_of_mem hmem
  have hmap : ((l1 ++ (p, c) :: l2).map Prod.fst)
      = l1.map Prod.fst ++ p :: l2.map Prod.fst := by simp
  rw [hmap, List.nodup_append] at hnd
  obtain ⟨hnd1, hnd2, hdisj⟩ := hnd
  have hp2 : p ∉ l2.map Prod.fst := (List.nodup_cons.1 hnd2).1
  rw [List.foldl_append, List.foldl_cons]
  have hself := writeOne_self wo stage (l1.foldl (writeOne wo stage) st) p c hok
  have hpres := foldl_writeOne_preserves wo stage l2
    (writeOne wo stage (l1.foldl (writeOne wo stage) st) (p, c)) p
    (fun q hq hv => hp2 (hv ▸ hq))
  exact ⟨hpres.1.trans hself.1, hpres.2.1.trans hself.2⟩

/-- Merging a document that redefines an already-written path records a
conflict listing the previous stage and the new stage, resolution
`"overwritten"`. -/
theorem writeList_conflict (wo : String → Bool) (stage : String)
    (l : List (String × String)) (st : AsmState) (p cb : String) (e0 : ManifestEntry)
    (hmem : (p, cb) ∈ l) (hnd : (l.map Prod.fst).Nodup)
    (hf : entriesFind st.entries p = some e0)
    (hc : conflictsFind st.conflicts p = none) :
    conflictsFind (l.foldl (writeOne wo stage) st).conflicts p
      = some ⟨p, [e0.stage_id, stage], "overwritten"⟩ := by
  obtain ⟨l1, l2, rfl⟩ := List.append_of_mem hmem
  have hmap : ((l1 ++ (p, cb) :: l2).map Prod.fst)
      = l1.map Prod.fst ++ p :: l2.map Prod.fst := by simp
  rw [hmap, List.nodup_append] at hnd
  obtain ⟨hnd1, hnd2, hdisj⟩ := hnd
  have hp1 : p ∉ l1.map Prod.fst := fun hq => hdisj hq (by simp)
  have hp2 : p ∉ l2.map Prod.fst := (List.nodup_cons.1 hnd2).1
  rw [List.foldl_append, List.foldl_cons]
  have hpres1 := foldl_writeOne_preserves wo stage l1 st p (fun q hq hv => hp1 (hv ▸ hq))
  have hf1 : entriesFind (l1.foldl (writeOne wo stage) st).entries p = some e0 :=
    hpres1.2.1.trans hf
  have hc1 : conflictsFind (l1.foldl (writeOne wo stage) st).conflicts p = none :=
    hpres1.2.2.trans hc
  have hconf := writeOne_conflict wo stage (l1.foldl (writeOne wo stage) st) p cb e0 hf1
  have hpres2 := foldl_writeOne_preserves wo stage l2
    (writeOne wo stage (l1.foldl (writeOne wo stage) st) (p, cb)) p
    (fun q hq hv => hp2 (hv ▸ hq))
  rw [hpres2.2.2, hconf]
  exact conflictsFind_add_self _ _ _ _ hc1

/-- The manifest/tree alignment invariant: entry paths coincide with the
tree's key list and are unique. -/
def asmInv (st : AsmState) : Prop :=
  st.entries.map ManifestEntry.path = st.fs.map Prod.fst ∧
  (st.entries.map ManifestEntry.path).Nodup

/-- Merging one file preserves the manifest/tree alignment invariant. -/
theorem writeOne_inv (wo : String → Bool) (stage : String) (st : AsmState)
    (pc : String × String) (h : asmInv st) : asmInv (writeOne wo stage st pc) := by
  obtain ⟨heq, hnd⟩ := h
  unfold writeOne
  rcases hf : entriesFind st.entries pc.1 with _ | e0 <;> dsimp only <;> cases hw : wo pc.1
  · rw [if_neg (by simp)]
    exact ⟨heq, hnd⟩
  · rw [if_pos rfl]
    have hnm : pc.1 ∉ st.entries.map ManifestEntry.path := entriesFind_none_not_mem _ _ hf
    have hnm' : pc.1 ∉ st.fs.map Prod.fst := heq ▸ hnm
    constructor
    · rw [fsWrite_keys_not_mem _ _ _ hnm']
      simp [heq, mkEntry]
    · simp only [List.map_append, List.map_cons, List.map_nil]
      rw [List.nodup_append]
      refine ⟨hnd, List.nodup_singleton _, ?_⟩
      intro q hq hq2
      simp only [mkEntry, List.mem_singleton] at hq2
      subst hq2
      exact hnm hq
  · rw [if_neg (by simp)]
    exact ⟨heq, hnd⟩
  · rw [if_pos rfl]
    have hm : pc.1 ∈ st.entries.map ManifestEntry.path := entriesFind_some_mem _ _ _ hf
    have hm' : pc.1 ∈ st.fs.map Prod.fst := heq ▸ hm
    have hupd := entriesUpdate_map_path st.entries (mkEntry pc.1 stage pc.2) e0 hf
    constructor
    · rw [hupd, fsWrite_keys_mem _ _ _ hm', heq]
    · rw [hupd]; exact hnd

/-- Folding a file list preserves the invariant. -/
theorem foldl_writeOne_inv (wo : String → Bool) (stage : String) :
    ∀ (l : List (String × String)) (st : AsmState), asmInv st →
    asmInv (l.foldl (writeOne wo stage) st) := by
  intro l
  induction l with
  | nil => intro st h; exact h
  | cons pc rest ih => intro st h; exact ih _ (writeOne_inv wo stage st pc h)

/-- Merging a document sequence preserves the invariant. -/
theorem foldl_docs_inv (wo : String → Bool) :
    ∀ (ds : List ProjectDocument) (st : AsmState), asmInv st →
    asmInv (ds.foldl (writeDoc wo) st) := by
  intro ds
  induction ds with
  | nil => intro st h; exact h
  | cons d rest ih => intro st h; exact ih _ (foldl_writeOne_inv wo d.stage_id d.files st h)

/-- C2: when an earlier document A and a later document B both define the
same path p, the assembled content at p is B's content (last-writer-wins),
and the manifest records a conflict for p listing both stage ids with
resolution "overwritten". -/
theorem assemble_conflict_resolution (A B : ProjectDocument) (p ca cb root : String)
    (hA : (p, ca) ∈ A.files) (hB : (p, cb) ∈ B.files)
    (hAnd : (A.files.map Prod.fst).Nodup) (hBnd : (B.files.map Prod.fst).Nodup) :
    fsGet (assemble (fun _ => true) [A, B] root).1 p = some cb ∧
    ConflictEntry.mk p [A.stage_id, B.stage_id] "overwritten"
      ∈ (assemble (fun _ => true) [A, B] root).2.conflicts := by
  have hempty : ∀ q ∈ A.files.map Prod.fst,
      entriesFind (AsmState.mk [] [] [] []).entries q = none := fun q _ => rfl
  have hst1e : entriesFind (writeDoc (fun _ => true) (AsmState.mk [] [] [] []) A).entries p
      = some (mkEntry p A.stage_id ca) :=
    (writeList_self (fun _ => true) A.stage_id A.files _ p ca hA hAnd rfl).2
  have hst1c : (writeDoc (fun _ => true) (AsmState.mk [] [] [] []) A).conflicts = [] :=
    foldl_no_conflicts (fun _ => true) A.stage_id A.files _ hempty hAnd
  have hfs : fsGet (writeDoc (fun _ => true)
      (writeDoc (fun _ => true) (AsmState.mk [] [] [] []) A) B).fs p = some cb :=
    (writeList_self (fun _ => true) B.stage_id B.files _ p cb hB hBnd rfl).1
  have hcf : conflictsFind (writeDoc (fun _ => true)
      (writeDoc (fun _ => true) (AsmState.mk [] [] [] []) A) B).conflicts p
      = some ⟨p, [(mkEntry p A.stage_id ca).stage_id, B.stage_id], "overwritten"⟩ :=
    writeList_conflict (fun _ => true) B.stage_id B.files _ p cb _ hB hBnd hst1e
      (by rw [hst1c]; rfl)
  exact ⟨hfs, conflictsFind_mem _ _ _ hcf⟩

/-- Witness for C2: two one-file documents both defining `README.txt`. -/
theorem assemble_conflict_resolution_witness :
    fsGet (assemble (fun _ => true)
        [⟨[("README.txt", "from A")], "stage1"⟩, ⟨[("README.txt", "from B")], "stage2"⟩]
        "root").1 "README.txt" = some "from B" ∧
    ConflictEntry.mk "README.txt" ["stage1", "stage2"] "overwritten"
      ∈ (assemble (fun _ => true)
        [⟨[("README.txt", "from A")], "stage1"⟩, ⟨[("README.txt", "from B")], "stage2"⟩]
        "root").2.conflicts :=
  assemble_conflict_resolution ⟨[("README.txt", "from A")], "stage1"⟩
    ⟨[("README.txt", "from B")], "stage2"⟩ "README.txt" "from A" "from B" "root"
    (by simp) (by simp) (by simp) (by simp)

/-- C5: assembly is deterministic — two runs of the fold from two (equal)
empty initial states produce identical states, and `assemble` is exactly
the pure function of its inputs given by that fold, so re-running it
against an empty root gives byte-identical trees and manifests. -/
theorem assemble_deterministic (wo : String → Bool) (docs : List ProjectDocument)
    (root : String) (st1 st2 : AsmState)
    (h1 : st1 = AsmState.mk [] [] [] []) (h2 : st2 = AsmState.mk [] [] [] []) :
    docs.foldl (writeDoc wo) st1 = docs.foldl (writeDoc wo) st2 ∧
    assemble wo docs root
      = ((docs.foldl (writeDoc wo) st1).fs,
         ProjectManifest.mk root (docs.foldl (writeDoc wo) st1).entries
           (docs.foldl (writeDoc wo) st1).conflicts
           (docs.foldl (writeDoc wo) st1).errors) := by
  subst h1; subst h2
  exact ⟨rfl, rfl⟩

/-- Witness for C5 at a concrete document list. -/
theorem assemble_deterministic_witness :
    [ProjectDocument.mk [("a.txt", "x")] "s1"].foldl (writeDoc (fun _ => true))
        (AsmState.mk [] [] [] [])
      = [ProjectDocument.mk [("a.txt", "x")] "s1"].foldl (writeDoc (fun _ => true))
        (AsmState.mk [] [] [] []) ∧
    assemble (fun _ => true) [ProjectDocument.mk [("a.txt", "x")] "s1"] "root"
      = (([ProjectDocument.mk [("a.txt", "x")] "s1"].foldl (writeDoc (fun _ => true))
            (AsmState.mk [] [] [] [])).fs,
         ProjectManifest.mk "root"
           ([ProjectDocument.mk [("a.txt", "x")] "s1"].foldl (writeDoc (fun _ => true))
             (AsmState.mk [] [] [] [])).entries
           ([ProjectDocument.mk [("a.txt", "x")] "s1"].foldl (writeDoc (fun _ => true))
             (AsmState.mk [] [] [] [])).conflicts
           ([ProjectDocument.mk [("a.txt", "x")] "s1"].foldl (writeDoc (fun _ => true))
             (AsmState.mk [] [] [] [])).errors) :=
  assemble_deterministic (fun _ => true) [ProjectDocument.mk [("a.txt", "x")] "s1"] "root"
    (AsmState.mk [] [] [] []) (AsmState.mk [] [] [] []) rfl rfl

/-- C7: a failed file write is recorded as a per-path `WriteFailure` error
in the manifest and does not abort the assembly of the remaining files:
every path in every document whose write fails appears in the manifest's
error list, and any other file with unique path and a succeeding write is
still written with its own content. -/
theorem assemble_partial_write_failure (wo : String → Bool) (root : String)
    (docs : List ProjectDocument) :
    (∀ d ∈ docs, ∀ pc ∈ d.files, wo pc.1 = false →
       (pc.1, "WriteFailure") ∈ (assemble wo docs root).2.errors) ∧
    (∀ (D : ProjectDocument) (q cq : String), (D.files.map Prod.fst).Nodup →
       (q, cq) ∈ D.files → wo q = true →
       fsGet (assemble wo [D] root).1 q = some cq) := by
  constructor
  · intro d hd pc hpc hbad
    obtain ⟨ds1, ds2, rfl⟩ := List.append_of_mem hd
    obtain ⟨f1, f2, hfl⟩ := List.append_of_mem hpc
    show (pc.1, "WriteFailure")
      ∈ ((ds1 ++ d :: ds2).foldl (writeDoc wo) (AsmState.mk [] [] [] [])).errors
    rw [List.foldl_append, List.foldl_cons]
    refine foldl_docs_errors_mono wo ds2 _ _ ?_
    show (pc.1, "WriteFailure")
      ∈ (writeDoc wo (ds1.foldl (writeDoc wo) (AsmState.mk [] [] [] [])) d).errors
    unfold writeDoc
    rw [hfl, List.foldl_append, List.foldl_cons]
    refine foldl_errors_mono wo d.stage_id f2 _ _ ?_
    rw [writeOne_error_entry wo d.stage_id _ pc hbad]
    simp
  · intro D q cq hnd hmem hok
    exact (writeList_self wo D.stage_id D.files _ q cq hmem hnd hok).1

/-- Witness for C7: one failed write recorded, the other file written. -/
theorem assemble_partial_write_failure_witness :
    ("bad.txt", "WriteFailure")
      ∈ (assemble (fun p => p != "bad.txt")
          [⟨[("bad.txt", "x"), ("good.txt", "y")], "s1"⟩] "root").2.errors ∧
    fsGet (assemble (fun p => p != "bad.txt")
        [⟨[("bad.txt", "x"), ("good.txt", "y")], "s1"⟩] "root").1 "good.txt"
      = some "y" := by
  constructor
  · exact (assemble_partial_write_failure (fun p => p != "bad.txt") "root"
      [⟨[("bad.txt", "x"), ("good.txt", "y")], "s1"⟩]).1
      ⟨[("bad.txt", "x"), ("good.txt", "y")], "s1"⟩ (by simp)
      ("bad.txt", "x") (by simp) (by decide)
  · exact (assemble_partial_write_failure (fun p => p != "bad.txt") "root"
      [⟨[("bad.txt", "x"), ("good.txt", "y")], "s1"⟩]).2
      ⟨[("bad.txt", "x"), ("good.txt", "y")], "s1"⟩ "good.txt" "y"
      (by decide) (by simp) (by decide)

/-- C8: after assembly the manifest's entry paths are exactly the key list
of the tree under the root — in particular the same set of files — and
every path occurs at most once in the manifest, even when several stages
contributed content for it. -/
theorem assemble_manifest_invariant (wo : String → Bool) (docs : List ProjectDocument)
    (root : String) :
    (assemble wo docs root).2.entries.map ManifestEntry.path
        = (assemble wo docs root).1.map Prod.fst ∧
    ((assemble wo docs root).2.entries.map ManifestEntry.path).Nodup := by
  have h := foldl_docs_inv wo docs (AsmState.mk [] [] [] []) ⟨rfl, List.nodup_nil⟩
  exact ⟨h.1, h.2⟩

/-! ## StageOrchestrator

Modelled from the spec (§4.4, §6): the orchestrator implementation is
absent from the repository snapshot.  The external model-call capability is
an environment mapping (stage index, call index) to an outcome; a fixed
retry bound covers transport failures; parse failures trigger one
corrective re-prompt and then a synthesized placeholder document. -/

/-- Outcome of one model call (spec §6). -/
inductive ModelOutcome where
  | response (raw : String)
  | transportFail
  | authFail

/-- The model-call environment: outcome per stage index and call index. -/
def ModelEnv := Nat → Nat → ModelOutcome

/-- A run-level fatal model-call failure. -/
inductive CallFail where
  | transport
  | auth
  deriving DecidableEq, Repr

/-- One step of the fixed generation sequence. -/
structure StageSpec where
  id : String
  deriving DecidableEq, Repr

/-- The fixed transport retry bound (spec §4.4). -/
def maxRetries : Nat := 3

/-- Invoke the model with bounded transport retries starting at call index
`k`; exhausting retries or an auth failure is fatal. -/
def callWithRetry (env : ModelEnv) (i : Nat) : Nat → Nat → Except CallFail String
  | _, 0 => .error .transport
  | k, n + 1 =>
    match env i k with
    | .response r => .ok r
    | .authFail => .error .auth
    | .transportFail => callWithRetry env i (k + 1) n

/-- The synthesized placeholder document substituted for a stage whose
response could not be parsed (spec §4.4): a single stub file plus a
diagnostic note, well-formed for downstream stages. -/
def placeholderDoc (spec : StageSpec) : ProjectDocument :=
  ⟨[("PLACEHOLDER.md",
     "stage " ++ spec.id ++ " response could not be parsed; placeholder substituted")],
   spec.id⟩

/-- Run one stage (spec §4.4): model call with retries, normalize then
parse; on parse failure one corrective re-prompt; on a second parse
failure the placeholder document, marked degraded.  Only transport/auth
failures are fatal. -/
def runStage (env : ModelEnv) (spec : StageSpec) (i : Nat) :
    Except CallFail (ProjectDocument × Bool) :=
  match callWithRetry env i 0 maxRetries with
  | .error f => .error f
  | .ok raw =>
    match parse spec.id (normalize raw) with
    | .ok d => .ok (d, false)
    | .error _ =>
      match callWithRetry env i maxRetries maxRetries with
      | .error f => .error f
      | .ok raw2 =>
        match parse spec.id (normalize raw2) with
        | .ok d => .ok (d, false)
        | .error _ => .ok (placeholderDoc spec, true)

/-- Drive the stages in order, accumulating documents and diagnostics; an
aborted run still returns the documents produced so far. -/
def runStages (env : ModelEnv) : List StageSpec → Nat →
    List ProjectDocument × List String × Bool
  | [], _ => ([], [], false)
  | spec :: rest, i =>
    match runStage env spec i with
    | .error _ => ([], ["stage " ++ spec.id ++ ": fatal model-call failure"], true)
    | .ok (d, degraded) =>
      let r := runStages env rest (i + 1)
      (d :: r.1,
       (if degraded then ["stage " ++ spec.id ++ ": degraded"] else []) ++ r.2.1,
       r.2.2)

/-- Pipeline status (spec §6). -/
inductive PipelineStatus where
  | Completed
  | PartiallyAssembled
  | Aborted
  deriving DecidableEq, Repr

/-- The driver-facing result (spec §4.4, §6). -/
structure PipelineResult where
  documents : List ProjectDocument
  status : PipelineStatus
  diagnostics : List String
  deriving DecidableEq, Repr

/-- Modelled from the spec: `run_pipeline` — run all stages, assemble
whatever documents were produced, and report `Completed`,
`PartiallyAssembled` (when a file write failed) or `Aborted` (fatal
model-call failure, documents still assembled). -/
def run_pipeline (env : ModelEnv) (stageSpecs : List StageSpec)
    (writeOk : String → Bool) (root : String) : PipelineResult :=
  let r := runStages env stageSpecs 0
  let am := assemble writeOk r.1 root
  { documents := r.1,
    status :=
      if r.2.2 then .Aborted
      else if am.2.errors.isEmpty then .Completed else .PartiallyAssembled,
    diagnostics := r.2.1 ++ am.2.errors.map (fun e => "write failure: " ++ e.1) }

/-! ### Orchestrator lemmas -/

/-- With a responding environment, a bounded-retry call returns the first
response. -/
theorem callWithRetry_response (env : ModelEnv)
    (hresp : ∀ i k, ∃ r, env i k = .response r) (i k n : Nat) (hn : 0 < n) :
    ∃ r, callWithRetry env i k n = .ok r ∧ env i k = .response r := by
  rcases n with _ | n
  · omega
  · rcases hresp i k with ⟨r, hr⟩
    refine ⟨r, ?_, hr⟩
    show (match env i k with
      | ModelOutcome.response r => Except.ok r
      | ModelOutcome.authFail => Except.error CallFail.auth
      | ModelOutcome.transportFail => callWithRetry env i (k + 1) n) = .ok r
    rw [hr]

/-- With a responding environment, a stage never fails fatally: it yields a
document (parsed, re-prompted, or placeholder). -/
theorem runStage_no_fatal (env : ModelEnv)
    (hresp : ∀ i k, ∃ r, env i k = .response r) (spec : StageSpec) (i : Nat) :
    ∃ d degraded, runStage env spec i = .ok (d, degraded) := by
  obtain ⟨r1, hc1, _⟩ := callWithRetry_response env hresp i 0 maxRetries (by decide)
  unfold runStage
  rw [hc1]
  dsimp only
  rcases hp1 : parse spec.id (normalize r1) with pf | d
  · obtain ⟨r2, hc2, _⟩ := callWithRetry_response env hresp i maxRetries maxRetries (by decide)
    rw [hc2]
    dsimp only
    rcases hp2 : parse spec.id (normalize r2) with pf2 | d2
    · exact ⟨placeholderDoc spec, true, rfl⟩
    · exact ⟨d2, false, rfl⟩
  · exact ⟨d, false, rfl⟩

/-- With a responding environment, the stage loop never aborts and yields
one document per stage. -/
theorem runStages_no_fatal (env : ModelEnv)
    (hresp : ∀ i k, ∃ r, env i k = .response r) :
    ∀ (specs : List StageSpec) (i : Nat),
    (runStages env specs i).2.2 = false ∧
    (runStages env specs i).1.length = specs.length := by
  intro specs
  induction specs with
  | nil => intro i; exact ⟨rfl, rfl⟩
  | cons spec rest ih =>
    intro i
    obtain ⟨d, deg, hd⟩ := runStage_no_fatal env hresp spec i
    unfold runStages
    rw [hd]
    dsimp only
    exact ⟨(ih (i + 1)).1, by simp [(ih (i + 1)).2]⟩

/-- C4: in a run with no transport or auth failure, parse failures are
never fatal: a stage failing both the initial parse and the corrective
re-prompt is replaced by the synthesized placeholder document, every stage
contributes a document (no prior work is discarded), and `run_pipeline`
terminates (it is a total function) in status `Completed` or
`PartiallyAssembled`. -/
theorem run_pipeline_parse_failure_not_fatal (env : ModelEnv)
    (stageSpecs : List StageSpec) (writeOk : String → Bool) (root : String)
    (hresp : ∀ i k, ∃ r, env i k = .response r) :
    ((run_pipeline env stageSpecs writeOk root).status = .Completed ∨
     (run_pipeline env stageSpecs writeOk root).status = .PartiallyAssembled) ∧
    (run_pipeline env stageSpecs writeOk root).documents.length = stageSpecs.length ∧
    (∀ (spec : StageSpec) (i : Nat) (r1 r2 : String) (pf1 pf2 : ParseFailure),
       env i 0 = .response r1 → env i maxRetries = .response r2 →
       parse spec.id (normalize r1) = .error pf1 →
       parse spec.id (normalize r2) = .error pf2 →
       runStage env spec i = .ok (placeholderDoc spec, true)) := by
  refine ⟨?_, ?_, ?_⟩
  · unfold run_pipeline
    dsimp only
    rw [(runStages_no_fatal env hresp stageSpecs 0).1]
    cases hE : (assemble writeOk (runStages env stageSpecs 0).1 root).2.errors.isEmpty
    · right; simp [hE]
    · left; simp [hE]
  · unfold run_pipeline
    dsimp only
    exact (runStages_no_fatal env hresp stageSpecs 0).2
  · intro spec i r1 r2 pf1 pf2 h1 h2 hp1 hp2
    have hc1 : callWithRetry env i 0 maxRetries = .ok r1 := by
      show (match env i 0 with
        | ModelOutcome.response r => Except.ok r
        | ModelOutcome.authFail => Except.error CallFail.auth
        | ModelOutcome.transportFail => callWithRetry env i 1 2) = .ok r1
      rw [h1]
    have hc2 : callWithRetry env i maxRetries maxRetries = .ok r2 := by
      show (match env i maxRetries with
        | ModelOutcome.response r => Except.ok r
        | ModelOutcome.authFail => Except.error CallFail.auth
        | ModelOutcome.transportFail => callWithRetry env i (maxRetries + 1) 2) = .ok r2
      rw [h2]
    unfold runStage
    rw [hc1]
    dsimp only
    rw [hp1]
    dsimp only
    rw [hc2]
    dsimp only
    rw [hp2]

/-- Witness for C4: an environment whose responses never parse still
completes, with the placeholder substituted. -/
theorem run_pipeline_parse_failure_not_fatal_witness :
    ((run_pipeline (fun _ _ => ModelOutcome.response "no structure here at all")
        [⟨"s1"⟩] (fun _ => true) "root").status = .Completed ∨
     (run_pipeline (fun _ _ => ModelOutcome.response "no structure here at all")
        [⟨"s1"⟩] (fun _ => true) "root").status = .PartiallyAssembled) ∧
    (run_pipeline (fun _ _ => ModelOutcome.response "no structure here at all")
        [⟨"s1"⟩] (fun _ => true) "root").documents.length = 1 :=
  ⟨(run_pipeline_parse_failure_not_fatal
      (fun _ _ => ModelOutcome.response "no structure here at all")
      [⟨"s1"⟩] (fun _ => true) "root"
      (fun _ _ => ⟨"no structure here at all", rfl⟩)).1,
   (run_pipeline_parse_failure_not_fatal
      (fun _ _ => ModelOutcome.response "no structure here at all")
      [⟨"s1"⟩] (fun _ => true) "root"
      (fun _ _ => ⟨"no structure here at all", rfl⟩)).2.1⟩

/-- Helper: every reachable theme state is `"light"` or `"dark"`. -/
theorem themeReach_cases {t : String} (h : ThemeReach t) : t = "light" ∨ t = "dark" := by
  induction h with
  | init => exact Or.inl rfl
  | system b h ih =>
    rcases ih with h' | h' <;> subst h' <;> cases b <;> simp [applySystemPreference]
  | toggle h ih =>
    rcases ih with h' | h' <;> subst h' <;> simp [toggleTheme]

/-- C1: the parser tries its five strategies in the fixed order named by
`strategyNames`, stopping at the first success; each strategy's failure is
recorded as a `ParseAttempt` without halting the chain; when all five fail,
the parser fails with the full ordered list of five attempts and returns no
partial document. -/
theorem parse_strategy_chain (stage t : String) :
    (∀ pf, parse stage t = .error pf →
        pf.attempts.map ParseAttempt.strategy = strategyNames ∧
        pf.attempts.length = 5 ∧
        (∀ a ∈ pf.attempts, a.succeeded = false) ∧
        (∀ r ∈ strategyResults stage t, isErr r = true)) ∧
    (∀ d, parse stage t = .ok d →
        ∃ i, ∃ h : i < (strategyResults stage t).length,
          (strategyResults stage t).get ⟨i, h⟩ = .ok d ∧
          ∀ j (hj : j < (strategyResults stage t).length), j < i →
            isErr ((strategyResults stage t).get ⟨j, hj⟩) = true) := by
  have hrs : strategyResults stage t =
      [stratRun "direct" directDecode stage t,
       stratRun "escaped" escapedDecode stage t,
       stratRun "literal_eval" literalEval stage t,
       stratRun "markdown_fence" fenceExtract stage t,
       stratRun "pattern_salvage" patternSalvage stage t] := rfl
  constructor
  · intro pf hp
    rcases firstOk_error _ _ _ hp with ⟨hall, hatts⟩
    have e1 : ∃ a, stratRun "direct" directDecode stage t = .error a := by
      have hErr := hall (stratRun "direct" directDecode stage t) (by rw [hrs]; exact List.mem_cons_self _ _)
      rcases h : stratRun "direct" directDecode stage t with a | d
      · exact ⟨a, rfl⟩
      · rw [h] at hErr; simp [isErr] at hErr
    have e2 : ∃ a, stratRun "escaped" escapedDecode stage t = .error a := by
      have hErr := hall (stratRun "escaped" escapedDecode stage t) (by rw [hrs]; simp)
      rcases h : stratRun "escaped" escapedDecode stage t with a | d
      · exact ⟨a, rfl⟩
      · rw [h] at hErr; simp [isErr] at hErr
    have e3 : ∃ a, stratRun "literal_eval" literalEval stage t = .error a := by
      have hErr := hall (stratRun "literal_eval" literalEval stage t) (by rw [hrs]; simp)
      rcases h : stratRun "literal_eval" literalEval stage t with a | d
      · exact ⟨a, rfl⟩
      · rw [h] at hErr; simp [isErr] at hErr
    have e4 : ∃ a, stratRun "markdown_fence" fenceExtract stage t = .error a := by
      have hErr := hall (stratRun "markdown_fence" fenceExtract stage t) (by rw [hrs]; simp)
      rcases h : stratRun "markdown_fence" fenceExtract stage t with a | d
      · exact ⟨a, rfl⟩
      · rw [h] at hErr; simp [isErr] at hErr
    have e5 : ∃ a, stratRun "pattern_salvage" patternSalvage stage t = .error a := by
      have hErr := hall (stratRun "pattern_salvage" patternSalvage stage t) (by rw [hrs]; simp)
      rcases h : stratRun "pattern_salvage" patternSalvage stage t with a | d
      · exact ⟨a, rfl⟩
      · rw [h] at hErr; simp [isErr] at hErr
    obtain ⟨a1, h1⟩ := e1
    obtain ⟨a2, h2⟩ := e2
    obtain ⟨a3, h3⟩ := e3
    obtain ⟨a4, h4⟩ := e4
    obtain ⟨a5, h5⟩ := e5
    have hattsExpl : pf.attempts = [a1, a2, a3, a4, a5] := by
      rw [hatts, hrs, h1, h2, h3, h4, h5]
      rfl
    have f1 := stratRun_error_fields h1
    have f2 := stratRun_error_fields h2
    have f3 := stratRun_error_fields h3
    have f4 := stratRun_error_fields h4
    have f5 := stratRun_error_fields h5
    refine ⟨?_, ?_, ?_, hall⟩
    · rw [hattsExpl]
      simp only [List.map_cons, List.map_nil]
      rw [f1.1, f2.1, f3.1, f4.1, f5.1]
      rfl
    · rw [hattsExpl]; rfl
    · intro a ha
      rw [hattsExpl] at ha
      simp only [List.mem_cons, List.not_mem_nil, or_false] at ha
      rcases ha with h | h | h | h | h <;> subst h
      · exact f1.2
      · exact f2.2
      · exact f3.2
      · exact f4.2
      · exact f5.2
  · intro d hd
    exact firstOk_ok _ _ _ hd

/-- Witness for C1 at the spec's scenario 4 (pure unstructured prose, all
five strategies fail) -- the attempts list is complete and ordered. -/
theorem parse_strategy_chain_witness :
    parse "doc" "no structure here at all" = .error
      ⟨[⟨"direct", false, "unexpected token"⟩, ⟨"escaped", false, "unexpected token"⟩,
        ⟨"literal_eval", false, "unexpected token"⟩,
        ⟨"markdown_fence", false, "no fenced file blocks found"⟩,
        ⟨"pattern_salvage", false, "no path and content pairs recognized"⟩]⟩ ∧
    (ParseFailure.mk
      [⟨"direct", false, "unexpected token"⟩, ⟨"escaped", false, "unexpected token"⟩,
       ⟨"literal_eval", false, "unexpected token"⟩,
       ⟨"markdown_fence", false, "no fenced file blocks found"⟩,
       ⟨"pattern_salvage", false, "no path and content pairs recognized"⟩]).attempts.map
      ParseAttempt.strategy = strategyNames := by
  have hp : parse "doc" "no structure here at all" = .error
      ⟨[⟨"direct", false, "unexpected token"⟩, ⟨"escaped", false, "unexpected token"⟩,
        ⟨"literal_eval", false, "unexpected token"⟩,
        ⟨"markdown_fence", false, "no fenced file blocks found"⟩,
        ⟨"pattern_salvage", false, "no path and content pairs recognized"⟩]⟩ := by decide
  exact ⟨hp, ((parse_strategy_chain "doc" "no structure here at all").1 _ hp).1⟩

/-- C3: every document the parser returns has a non-empty file map whose
keys are unique normalized relative paths: no key is empty, none starts
with a slash, and no key contains an empty or `..` segment, so no path
resolves outside the project root; and any candidate containing an invalid
path is rejected with `PathViolation` instead of being returned. -/
theorem parse_path_safety (stage t : String) :
    (∀ d, parse stage t = .ok d →
        d.files ≠ [] ∧ (d.files.map Prod.fst).Nodup ∧
        ∀ kv ∈ d.files, pathOk kv.1 = true ∧ kv.1 ≠ "" ∧
          kv.1.data.head? ≠ some '/' ∧
          ∀ seg ∈ splitOnSlash kv.1.data, seg ≠ ['.', '.'] ∧ seg ≠ []) ∧
    (∀ files kv, kv ∈ files → pathOk kv.1 = false →
        validateFiles files = .error "PathViolation") := by
  constructor
  · intro d hd
    rcases firstOk_ok _ _ _ hd with ⟨i, hi, hget, _⟩
    have hi' : i < strategyList.length := by
      simpa [strategyResults] using hi
    have hrun : stratRun (strategyList.get ⟨i, hi'⟩).1 (strategyList.get ⟨i, hi'⟩).2 stage t
        = .ok d := by
      rw [← hget]
      unfold strategyResults
      rw [List.get_map]
    rcases stratRun_ok_valid hrun with ⟨_, hne, hpaths, hnd⟩
    refine ⟨hne, hnd, ?_⟩
    intro kv hkv
    have hok := hpaths kv hkv
    have hok' := hok
    simp only [pathOk, Bool.and_eq_true, decide_eq_true_eq, Bool.not_eq_true'] at hok'
    obtain ⟨⟨⟨hne', hhead⟩, _⟩, hsegs⟩ := hok'
    refine ⟨hok, ?_, hhead, ?_⟩
    · intro hq; rw [hq] at hne'; exact hne' rfl
    · intro seg hseg
      have := List.all_eq_true.1 hsegs seg hseg
      simp only [Bool.and_eq_true, decide_eq_true_eq] at this
      exact ⟨this.1.2, this.1.1⟩
  · intro files kv hmem hbad
    exact validateFiles_pathViolation hmem hbad

/-- Witness for C3 at the spec's scenario 1. -/
theorem parse_path_safety_witness :
    parse "s1" "\x7b\"files\": \x7b\"a/b.txt\": \"hello\"\x7d\x7d"
        = .ok ⟨[("a/b.txt", "hello")], "s1"⟩ ∧
    (ProjectDocument.mk [("a/b.txt", "hello")] "s1").files ≠ [] ∧
    validateFiles [("../../etc/passwd", "root")] = .error "PathViolation" := by
  have hp : parse "s1" "\x7b\"files\": \x7b\"a/b.txt\": \"hello\"\x7d\x7d"
      = .ok ⟨[("a/b.txt", "hello")], "s1"⟩ := by decide
  refine ⟨hp, ((parse_path_safety "s1" "\x7b\"files\": \x7b\"a/b.txt\": \"hello\"\x7d\x7d").1 _ hp).1, ?_⟩
  exact (parse_path_safety "s1" "x").2 [("../../etc/passwd", "root")]
    ("../../etc/passwd", "root") (List.mem_singleton.2 rfl) (by decide)

/-- C6: `ResponseNormalizer.normalize` is idempotent: for every string `s`,
`normalize (normalize s) = normalize s`.  Totality (the "never fails"
half of the claim) holds by construction: `normalize` is a total function
on `String` that, when no wrapping is recognized, returns the input with
only line endings normalized. -/
theorem normalize_idempotent (s : String) : normalize (normalize s) = normalize s := by
  unfold normalize
  rw [show (String.mk (normalizeChars s.data)).data = normalizeChars s.data from rfl,
    normalizeChars_idem]

/-- C9: the LoadingSpinner returns null exactly when `visible` is false;
when visible it renders a `div` with `role="status"` carrying the given
label both as `aria-label` and as the screen-reader span's text. -/
theorem loadingSpinner_visibility (p : SpinnerProps) :
    (LoadingSpinner p = none ↔ p.visible = false) ∧
    (p.visible = true →
      ∃ attrs children, LoadingSpinner p = some (.elem "div" attrs children) ∧
        ("role", "status") ∈ attrs ∧ ("aria-label", p.label) ∈ attrs ∧
        (VNode.elem "span" [("className", "sr-only")] [.text p.label]) ∈ children) := by
  constructor
  · cases hv : p.visible <;> simp [LoadingSpinner, hv]
  · intro hv
    refine ⟨[("className", "flex items-center justify-center " ++ p.className),
        ("role", "status"), ("aria-label", p.label)],
      [.elem "svg"
        [("className", jsLookup sizeClasses p.size ++ " " ++ jsLookup colorClasses p.color
            ++ " animate-spin"),
         ("xmlns", "http://www.w3.org/2000/svg"), ("fill", "none"),
         ("viewBox", "0 0 24 24"), ("aria-hidden", "true")]
        [spinnerCircle, spinnerPath],
       .elem "span" [("className", "sr-only")] [.text p.label]],
      by simp [LoadingSpinner, hv], ?_, ?_, ?_⟩ <;> simp

/-- Witness for C9 at the component's default props. -/
theorem loadingSpinner_visibility_witness :
    (LoadingSpinner SpinnerProps.defaults = none ↔ SpinnerProps.defaults.visible = false) ∧
    (SpinnerProps.defaults.visible = true →
      ∃ attrs children,
        LoadingSpinner SpinnerProps.defaults = some (.elem "div" attrs children) ∧
        ("role", "status") ∈ attrs ∧ ("aria-label", SpinnerProps.defaults.label) ∈ attrs ∧
        (VNode.elem "span" [("className", "sr-only")] [.text SpinnerProps.defaults.label])
          ∈ children) :=
  loadingSpinner_visibility SpinnerProps.defaults

/-- C10: every reachable theme state of the calculator App is `"light"` or
`"dark"`, and `toggleTheme` is an involution on the reachable states. -/
theorem toggleTheme_involutive_on_reachable {t : String} (h : ThemeReach t) :
    (t = "light" ∨ t = "dark") ∧ toggleTheme (toggleTheme t) = t := by
  refine ⟨themeReach_cases h, ?_⟩
  rcases themeReach_cases h with h' | h' <;> subst h' <;> simp [toggleTheme]

/-- Witness for C10 at the initial state. -/
theorem toggleTheme_involutive_on_reachable_witness :
    ("light" = "light" ∨ "light" = "dark") ∧ toggleTheme (toggleTheme "light") = "light" :=
  toggleTheme_involutive_on_reachable ThemeReach.init

end AutoDev
